import Mathlib

/-!
Shallow embedding of the LoomSDK script-runtime core
(`src/loom/script/runtime/lsLuaState.cpp`) and proofs about the claims of
its specification.  C++ state mutation is modelled by explicit state
passing; the embedded Lua VM, zlib and the native-binding registry are
modelled at their interface as explicit parameters; fatal `LSError` /
`lmCheck` / `assert` paths are modelled with `Except` or an error
component.  Unbounded C recursion (the cascading missing-type marking,
the base-type chain walk) is modelled with structural fuel, always
instantiated large enough to cover every terminating execution of the
source.
-/

namespace LoomSpec

/-! ## Definitions -/

/-- A loaded assembly, as tracked by `LSLuaState::assemblies`
(only the fields the claims need: its name and unique id). -/
structure Assembly where
  name : String
  uniqueId : String
  deriving DecidableEq, Repr

/-- Embedding of `LSLuaState::getAssembly` (lsLuaState.cpp:669-687):
scan the loaded assemblies in order; return the first whose name equals
the query, or whose name with ".loom" appended equals the query. -/
def getAssembly : List Assembly → String → Option Assembly
  | [], _ => none
  | a :: rest, name =>
    if a.name = name then some a
    else if a.name ++ ".loom" = name then some a
    else getAssembly rest name

/-- Specification-level description of the same lookup, written from the
claim: the first assembly (in load order) matching either exactly or with
".loom" appended, within a single scan. -/
def getAssemblySpec (assemblies : List Assembly) (name : String) : Option Assembly :=
  assemblies.find? (fun a => a.name = name || a.name ++ ".loom" = name)

/-- The per-instance state of `LSLuaState` that `close()` touches: the
embedded VM handle `L` (`none` models the null pointer) and the list of
owned assemblies.  `close()` deletes the assembly objects but does not
clear the `assemblies` array, so the field is kept as-is in the
successor state; the destroyed objects are returned separately. -/
structure LSLuaStateModel where
  L : Option Nat
  assemblies : List Assembly
  deriving DecidableEq, Repr

/-- Embedding of `LSLuaState::close` (lsLuaState.cpp:168-193): `assert(L)`
is the precondition gate (modelled as `Except.error`); on success the
owned assemblies are destroyed (returned as the second component, each
exactly once) and the handle is set to null. -/
def close (s : LSLuaStateModel) : Except String (LSLuaStateModel × List Assembly) :=
  match s.L with
  | none => Except.error "assert(L) failed in LSLuaState::close"
  | some _ => Except.ok ({ s with L := none }, s.assemblies)

/-- Little-endian 32-bit read at byte offset `off`, as
`utByteArray::readUnsignedInt` does on the copied header. -/
def readU32 (bytes : List Nat) (off : Nat) : Nat :=
  bytes.getD off 0 + 256 * bytes.getD (off + 1) 0 +
    65536 * bytes.getD (off + 2) 0 + 16777216 * bytes.getD (off + 3) 0

/-- Modelled from the spec: the compiled-in container magic constant
`LOOM_BINARY_ID` is defined outside the provided sources; per the spec
scenario the magic is the four bytes "LOOM", read as a little-endian
32-bit integer. -/
def LOOM_BINARY_ID : Nat := 76 + 256 * 79 + 65536 * 79 + 16777216 * 77

/-- Modelled from the spec: compiled-in major version constant
`LOOM_BINARY_VERSION_MAJOR`; the spec scenario uses major = 2. -/
def LOOM_BINARY_VERSION_MAJOR : Nat := 2

/-- Modelled from the spec: compiled-in minor version constant
`LOOM_BINARY_VERSION_MINOR`; the spec scenario uses minor = 0. -/
def LOOM_BINARY_VERSION_MINOR : Nat := 0

/-- zlib `Z_OK` status. -/
def Z_OK : Int := 0

/-- Outcome of the external zlib `uncompress` call: its return status and
the number of bytes written (`readSZ` after the call). -/
structure UncompressResult where
  status : Int
  written : Nat

/-- Embedding of `LSLuaState::openExecutableAssemblyBinary`
(lsLuaState.cpp:611-634).  The four header fields are read as
little-endian 32-bit integers; each `lmCheck` failure is an
`Except.error` with the source's message.  The external zlib
`uncompress` routine is a parameter receiving the compressed remainder
of the buffer and the declared size; the produced `utByteArray` is
modelled by its size (it is resized to `sz` before decompression, so a
successful decode yields a buffer of exactly `sz` bytes). -/
def openExecutableAssemblyBinary
    (uncomp : List Nat → Nat → UncompressResult)
    (buffer : List Nat) : Except String Nat :=
  if readU32 buffer 0 ≠ LOOM_BINARY_ID then
    Except.error "binary id mismatch"
  else if readU32 buffer 4 ≠ LOOM_BINARY_VERSION_MAJOR then
    Except.error "major version mismatch"
  else if readU32 buffer 8 ≠ LOOM_BINARY_VERSION_MINOR then
    Except.error "minor version mismatch"
  else
    let sz := readU32 buffer 12
    let r := uncomp (buffer.drop 16) sz
    if r.status ≠ Z_OK then
      Except.error "problem uncompressing executable assembly"
    else if r.written ≠ sz then
      Except.error "Read size mismatch"
    else
      Except.ok sz

/-- Which allocator `LSLuaState::open` installs (lsLuaState.cpp:96-104):
on `LOOM_PLATFORM_64BIT` builds, `luaL_newstate()` is used and the VM
runs on Lua's default allocator; otherwise
`lua_newstate(lsLuaAlloc, this)` installs the custom counting
allocator. -/
inductive AllocatorKind where
  | luaDefault
  | custom
  deriving DecidableEq, Repr

/-- The allocator-selection branch of `LSLuaState::open`, indexed by the
compile-time `LOOM_PLATFORM_64BIT` flag. -/
def openAllocatorKind (platform64 : Bool) : AllocatorKind :=
  if platform64 then AllocatorKind.luaDefault else AllocatorKind.custom

/-- The counter update performed by `lsLuaAlloc` (lsLuaState.cpp:75-94):
`LSLuaState::allocatedBytes += nsize - osize` in `size_t` arithmetic,
that is, modulo `2 ^ w` for the machine word width `w`. -/
def lsLuaAllocCounter (w : Nat) (allocated osize nsize : Nat) : Nat :=
  (((allocated : Int) + (nsize : Int) - (osize : Int)) % ((2 : Int) ^ w)).toNat

/-- The memory action `lsLuaAlloc` takes after updating the counter:
`nsize == 0` frees the block, a null `ptr` is a fresh allocation, and
anything else is a reallocation. -/
inductive AllocAction where
  | free
  | alloc (nsize : Nat)
  | realloc (nsize : Nat)
  deriving DecidableEq, Repr

/-- Embedding of `lsLuaAlloc` (lsLuaState.cpp:75-94): the new counter
value together with the memory action taken.  `ptrNull` models
`ptr == NULL`. -/
def lsLuaAlloc (w : Nat) (allocated : Nat) (ptrNull : Bool) (osize nsize : Nat) :
    Nat × AllocAction :=
  let allocated2 := lsLuaAllocCounter w allocated osize nsize
  if nsize = 0 then (allocated2, AllocAction.free)
  else if ptrNull then (allocated2, AllocAction.alloc nsize)
  else (allocated2, AllocAction.realloc nsize)

/-- Running the counter over a whole sequence of allocator calls, each
call being an `(osize, nsize)` pair. -/
def runAllocCounter (w : Nat) (allocated : Nat) : List (Nat × Nat) → Nat
  | [] => allocated
  | c :: rest => runAllocCounter w (lsLuaAllocCounter w allocated c.1 c.2) rest

/-- Reflected type descriptor (`LS::Type`), restricted to the fields
read by lsLuaState.cpp: ordinal type ID, fully-qualified name, base-type
reference, import references, native/managed flags, and the mutable
missing flag.  Base and import references are indices into the cohort
list (`baseIdx = none` models a type with no base type). -/
structure LSType where
  typeID : Nat
  fullName : String
  baseIdx : Option Nat
  importIdxs : List Nat
  isNative : Bool
  hasStaticNativeMember : Bool
  nativeManaged : Bool
  missing : Bool
  deriving DecidableEq, Repr

/-- `type->getMissing()` for the cohort member at index `i`
(out-of-range reads as not missing). -/
def missAt (ts : List LSType) (i : Nat) : Bool :=
  ((ts.get? i).map (fun t => t.missing)).getD false

/-- `type->getImports(imports)` for the cohort member at index `i`. -/
def impOf (ts : List LSType) (i : Nat) : List Nat :=
  ((ts.get? i).map (fun t => t.importIdxs)).getD []

/-- `type->setMissing(...)` on the cohort member at index `i`. -/
def setMissingAt (ts : List LSType) (i : Nat) : List LSType :=
  match ts.get? i with
  | some t => ts.set i { t with missing := true }
  | none => ts

/-- The per-type loop of `LSLuaState::cacheAssemblyTypes`
(lsLuaState.cpp:286-307) restricted to the ordinal-array bookkeeping:
for each type, `lmAssert` that its ordinal ID lies in `1..count`
(modelled as `Except.error`), then store it at slot `typeID` of the
ordinal array. -/
def cacheOrdinals (n : Nat) :
    List LSType → List (Option LSType) → Except String (List (Option LSType))
  | [], ord => Except.ok ord
  | t :: rest, ord =>
    if 0 < t.typeID ∧ t.typeID ≤ n then
      cacheOrdinals n rest (ord.set t.typeID (some t))
    else
      Except.error "LSLuaState::cacheAssemblyTypes TypeID out of range"

/-- Embedding of the ordinal-array construction of
`LSLuaState::cacheAssemblyTypes`: the ordinal array is allocated with
`count + 1` slots (slot 0 unused, modelled `none`), then filled by the
per-type loop. -/
def cacheAssemblyTypes (types : List LSType) : Except String (List (Option LSType)) :=
  cacheOrdinals types.length types (List.replicate (types.length + 1) none)

/-- Embedding of `markImportedMissing` (lsLuaState.cpp:400-421): scan the
cohort; skip already-missing types; when a scanned type imports the type
at index `m`, flag it missing and recursively propagate from it, then
continue the scan.  The C recursion is unbounded; here one unit of
structural `fuel` is spent per scanned index, which covers every
terminating execution of the source when the fuel is at least
`(length + 1) ^ 2` (each flagging strictly shrinks the set of live
types). -/
def markImportedMissingRun : Nat → Nat → List LSType → List Nat → List LSType
  | 0, _, st, _ => st
  | _ + 1, _, st, [] => st
  | fuel + 1, m, st, i :: rest =>
    if missAt st i then markImportedMissingRun fuel m st rest
    else if m ∈ impOf st i then
      let st2 := setMissingAt st i
      let st3 := markImportedMissingRun fuel i st2 (List.range st2.length)
      markImportedMissingRun fuel m st3 rest
    else markImportedMissingRun fuel m st rest

/-- Fuel for `markImportedMissingRun` that covers every execution on a
cohort of `len` types. -/
def mimFuel (len : Nat) : Nat := (len + 1) * (len + 1)

/-- The base-chain walk of `LSLuaState::finalizeAssemblyLoad`
(lsLuaState.cpp:445-453): starting at the type itself, report whether
any type on the base chain is currently flagged missing.  The C loop is
unbounded; fuel at least `length + 1` covers every acyclic chain. -/
def baseWalk : List LSType → Nat → Option Nat → Bool
  | _, 0, _ => false
  | _, _ + 1, none => false
  | ts, fuel + 1, some i =>
    match ts.get? i with
    | none => false
    | some t => t.missing || baseWalk ts fuel t.baseIdx

/-- The list of cohort indices the base-chain walk visits, used to state
"the base-type chain contains ...". -/
def baseChain : List LSType → Nat → Option Nat → List Nat
  | _, 0, _ => []
  | _, _ + 1, none => []
  | ts, fuel + 1, some i =>
    match ts.get? i with
    | none => []
    | some t => i :: baseChain ts fuel t.baseIdx

/-- The import check of the same loop (lsLuaState.cpp:455-465): does the
type at index `i` import a type currently flagged missing? -/
def importMissing (ts : List LSType) (i : Nat) : Bool :=
  (impOf ts i).any (fun k => missAt ts k)

/-- The missing-type propagation loop of
`LSLuaState::finalizeAssemblyLoad` (lsLuaState.cpp:436-475): for each
index in order, recompute `incomplete` from the current flags (walk the
base chain, check the imports); when incomplete, set `shrink`, flag the
type missing and run the cascading `markImportedMissing` from it. -/
def finalizeScan : List LSType → Bool → List Nat → List LSType × Bool
  | st, shrink, [] => (st, shrink)
  | st, shrink, j :: rest =>
    if baseWalk st (st.length + 1) (some j) || importMissing st j then
      let st2 := setMissingAt st j
      let st3 := markImportedMissingRun (mimFuel st2.length) j st2 (List.range st2.length)
      finalizeScan st3 true rest
    else finalizeScan st shrink rest

/-- The whole missing-type marking phase of `finalizeAssemblyLoad`,
before compaction: one pass over all cohort indices. -/
def markingPass (ts : List LSType) : List LSType × Bool :=
  finalizeScan ts false (List.range ts.length)

/-- The in-place compaction loop of `LSLuaState::finalizeAssemblyLoad`
(lsLuaState.cpp:480-497): a write cursor `firstFree` chases the read
cursor; surviving types are moved down, missing types are unregistered
from their module and deleted (collected in `removed`, the slot being
nulled).  Returns the final array, the live count `firstFree`, and the
removed types in removal order. -/
def compactScan :
    List (Option LSType) → Nat → List LSType → List Nat →
      List (Option LSType) × Nat × List LSType
  | arr, ff, removed, [] => (arr, ff, removed)
  | arr, ff, removed, j :: rest =>
    match arr.getD j none with
    | some t =>
      if t.missing = false then
        compactScan (arr.set ff (some t)) (ff + 1) removed rest
      else
        compactScan (arr.set j none) ff (removed ++ [t]) rest
    | none => compactScan arr ff removed rest

/-- The compaction step as a whole: run the two-cursor loop over all
indices, then `resize(firstFree)` (drop the tail and strip the
now-dead option wrappers).  Returns the compacted live list and the
removed (unregistered and deleted) types. -/
def compact (ts : List LSType) : List LSType × List LSType :=
  let r := compactScan (ts.map some) 0 [] (List.range ts.length)
  ((r.1.take r.2.1).reduceOption, r.2.2)

/-- A registered native binding (`NativeTypeBase`): its managed flag,
its host C type name, and whether its one-time structural validation of
the script type succeeds (`NativeTypeBase::validate` is host code,
modelled by this flag). -/
structure NativeTypeBase where
  managed : Bool
  cTypeName : String
  validatesOk : Bool
  deriving DecidableEq, Repr

/-- One observable step of the declare / initialize pipeline, recorded
in execution order: `declareClass`, native-binding validation,
`type->cache()`, `initializeClass`, `lsr_classinitializestatic`.
Each event carries the cohort index of the type it acted on. -/
inductive PhaseEvent where
  | declare (i : Nat)
  | validate (i : Nat)
  | cacheMembers (i : Nat)
  | initClass (i : Nat)
  | staticInit (i : Nat)
  deriving DecidableEq, Repr

/-- Pipeline rank of an event: declares before validations before member
caching before class initialization before static initializers. -/
def phaseRank : PhaseEvent → Nat
  | PhaseEvent.declare _ => 0
  | PhaseEvent.validate _ => 1
  | PhaseEvent.cacheMembers _ => 2
  | PhaseEvent.initClass _ => 3
  | PhaseEvent.staticInit _ => 4

/-- First pass of `LSLuaState::declareLuaTypes` (lsLuaState.cpp:214-220):
declare every non-missing type, in order. -/
def declarePass (types : List LSType) : List PhaseEvent :=
  ((List.range types.length).filter (fun i => !missAt types i)).map PhaseEvent.declare

/-- The fatal managed-mismatch message of `declareLuaTypes`
(lsLuaState.cpp:237-247), naming which side (script declaration vs.
native binding) claimed managed and which unmanaged. -/
def mismatchMsg (t : LSType) : String :=
  if t.nativeManaged then
    "Managed mismatch for type " ++ t.fullName ++
      ", script declaration specifies managed while native bindings are unmanaged"
  else
    "Managed mismatch for type " ++ t.fullName ++
      ", script declaration specifies unmanaged while native bindings are managed"

/-- Second pass of `LSLuaState::declareLuaTypes` (lsLuaState.cpp:222-252):
for every non-missing native (or static-native) type, fetch the native
binding from the host registry (`bindings`, keyed by full type name) and
enforce the managed/unmanaged contract; each `LSError` is fatal and
stops the pipeline with its message. -/
def validatePass (bindings : String → Option NativeTypeBase) (types : List LSType) :
    List Nat → List PhaseEvent × Option String
  | [] => ([], none)
  | i :: rest =>
    match types.get? i with
    | none => validatePass bindings types rest
    | some t =>
      if t.missing then validatePass bindings types rest
      else if t.isNative || t.hasStaticNativeMember then
        match bindings t.fullName with
        | none =>
          ([], some ("Unable to get NativeTypeBase for type " ++ t.fullName))
        | some ntb =>
          if t.nativeManaged ≠ ntb.managed then
            ([], some (mismatchMsg t))
          else if ntb.validatesOk = false then
            ([], some ("NativeTypeBase validation failed for type " ++ t.fullName))
          else
            let r := validatePass bindings types rest
            (PhaseEvent.validate i :: r.1, r.2)
      else validatePass bindings types rest

/-- Embedding of `LSLuaState::declareLuaTypes` (lsLuaState.cpp:212-253):
the declare pass over the full cohort, then the native validation pass;
a fatal error in the second pass carries its message. -/
def declareLuaTypes (bindings : String → Option NativeTypeBase) (types : List LSType) :
    List PhaseEvent × Option String :=
  let v := validatePass bindings types (List.range types.length)
  (declarePass types ++ v.1, v.2)

/-- Embedding of `LSLuaState::initializeLuaTypes` (lsLuaState.cpp:256-283):
three strictly ordered full passes over the cohort — member-cache every
non-missing type, then initialize every non-missing type, then run the
static initializers in declaration order. -/
def initializeLuaTypes (types : List LSType) : List PhaseEvent :=
  ((List.range types.length).filter (fun i => !missAt types i)).map PhaseEvent.cacheMembers ++
  ((List.range types.length).filter (fun i => !missAt types i)).map PhaseEvent.initClass ++
  ((List.range types.length).filter (fun i => !missAt types i)).map PhaseEvent.staticInit

/-- The declare/initialize tail of `LSLuaState::finalizeAssemblyLoad`
(lsLuaState.cpp:499-500): declare the cohort; if a fatal `LSError`
occurred during declaration, the process dies there and
`initializeLuaTypes` never runs; otherwise initialize. -/
def declareAndInit (bindings : String → Option NativeTypeBase) (types : List LSType) :
    List PhaseEvent × Option String :=
  let d := declareLuaTypes bindings types
  match d.2 with
  | some e => (d.1, some e)
  | none => (d.1 ++ initializeLuaTypes types, none)

/-- One VM call frame as seen by the traceback walker: whether the
callable is a C function (`lua_iscfunction`), the method metadata it
resolves to through the `LSINDEXMETHODLOOKUP` table (`none` when the
lookup is nil), whether that metadata is native, and the frame's debug
source and current line. -/
structure LuaFrame where
  cfunc : Bool
  methodLookup : Option Nat
  nativeMethod : Bool
  source : String
  currentline : Int
  deriving DecidableEq, Repr

/-- One captured trace entry (`struct stackinfo`). -/
structure StackInfo where
  methodBase : Nat
  source : String
  linenumber : Int
  deriving DecidableEq, Repr

/-- The loop body of `_getCurrentStack` (lsLuaState.cpp:856-915),
walking frames innermost first and carrying the metadata of the last
retained frame: a frame whose callable is not in the method-lookup
table is skipped; a C-function frame resolving to the same metadata as
the last retained frame is skipped (the pcall/trampoline wrapper);
otherwise a `stackinfo` is recorded with a "[NATIVE]" source sentinel
for native methods and line 0 when the line is unknown. -/
def getCurrentStackGo : Option Nat → List LuaFrame → List StackInfo
  | _, [] => []
  | lastMethod, f :: rest =>
    match f.methodLookup with
    | none => getCurrentStackGo lastMethod rest
    | some mb =>
      if f.cfunc ∧ lastMethod = some mb then
        getCurrentStackGo lastMethod rest
      else
        { methodBase := mb,
          source := if f.nativeMethod then "[NATIVE]" else f.source,
          linenumber := if f.currentline = -1 then 0 else f.currentline } ::
          getCurrentStackGo (some mb) rest

/-- Embedding of `_getCurrentStack`: walk the whole frame list from the
innermost frame with no last-retained metadata. -/
def getCurrentStack (frames : List LuaFrame) : List StackInfo :=
  getCurrentStackGo none frames

/-- The number of live (non-missing) types in a cohort. -/
def countLive (ts : List LSType) : Nat :=
  (ts.filter (fun t => !t.missing)).length

/-- A type with its mutable missing flag cleared: the static part that
the marking pass never changes. -/
def clearMiss (t : LSType) : LSType := { t with missing := false }

/-- Two cohort states agree on everything except (possibly) the missing
flags. -/
def sameStatics (ts ts2 : List LSType) : Prop :=
  ∀ j : Nat, (ts.get? j).map clearMiss = (ts2.get? j).map clearMiss

/-- All importers of the type at index `m` have been flagged: no
surviving type imports it. -/
def Propagated (ts : List LSType) (m : Nat) : Prop :=
  ∀ i : Nat, i < ts.length → missAt ts i = false → m ∉ impOf ts i

/-- Loop invariant of the missing-type propagation pass: any import edge
from a surviving type to a flagged type points into the not-yet-scanned
index list. -/
def ImpInv (st : List LSType) (js : List Nat) : Prop :=
  ∀ t m : Nat, missAt st t = false → m ∈ impOf st t → missAt st m = true → m ∈ js

/-- Whether the native-validation pass steps over index `i` without a
fatal error: the type is missing or not native, or its binding exists,
agrees on the managed flag, and validates. -/
def validateStepOk (bindings : String → Option NativeTypeBase) (types : List LSType)
    (i : Nat) : Bool :=
  match types.get? i with
  | none => true
  | some t =>
    if t.missing then true
    else if t.isNative || t.hasStaticNativeMember then
      match bindings t.fullName with
      | none => false
      | some ntb => (t.nativeManaged == ntb.managed) && ntb.validatesOk
    else true

end LoomSpec

namespace LoomSpec

/-! ## Theorems -/

theorem getAssembly_eq_find (assemblies : List Assembly) (name : String) :
    getAssembly assemblies name = getAssemblySpec assemblies name := by
  induction assemblies with
  | nil => rfl
  | cons a rest ih =>
    by_cases h1 : a.name = name
    · simp [getAssembly, getAssemblySpec, List.find?, h1]
    · by_cases h2 : a.name ++ ".loom" = name
      · simp [getAssembly, getAssemblySpec, List.find?, h1, h2]
      · simp only [getAssembly, if_neg h1, if_neg h2, ih]
        simp [getAssemblySpec, List.find?, h1, h2]

/-- C10: `getAssembly` returns the first loaded assembly (in load order)
whose name equals the query exactly or, within the same scan, whose name
with ".loom" appended equals the query; it returns null when no loaded
assembly matches either way. -/
theorem c10_getAssembly (assemblies : List Assembly) (name : String) :
    getAssembly assemblies name =
      assemblies.find? (fun a => a.name = name || a.name ++ ".loom" = name) :=
  getAssembly_eq_find assemblies name

/-- C8: calling `close()` on an instance that is not open fails the
`assert(L)` precondition (never a silent no-op); on an open instance it
destroys all owned assemblies exactly once, nulls the VM handle, and a
second `close()` on the result is rejected by the same precondition, so
a double free is unreachable. -/
theorem c8_close (s : LSLuaStateModel) :
    (s.L = none → close s = Except.error "assert(L) failed in LSLuaState::close") ∧
    (∀ h : Nat, s.L = some h →
      ∃ s2 : LSLuaStateModel,
        close s = Except.ok (s2, s.assemblies) ∧
        s2.L = none ∧
        close s2 = Except.error "assert(L) failed in LSLuaState::close") := by
  constructor
  · intro hnone
    simp [close, hnone]
  · intro h hsome
    refine ⟨{ s with L := none }, ?_, rfl, ?_⟩
    · simp [close, hsome]
    · simp [close]

/-- C8 witness: a concrete open instance with two assemblies closes,
destroying both exactly once and nulling the handle, and a second close
on the result is rejected by the precondition. -/
theorem c8_close_witness :
    close ⟨some 1, [⟨"Main", "uid1"⟩, ⟨"System", "uid2"⟩]⟩ =
      Except.ok (⟨none, [⟨"Main", "uid1"⟩, ⟨"System", "uid2"⟩]⟩,
        [⟨"Main", "uid1"⟩, ⟨"System", "uid2"⟩]) ∧
    close ⟨none, [⟨"Main", "uid1"⟩, ⟨"System", "uid2"⟩]⟩ =
      Except.error "assert(L) failed in LSLuaState::close" := by
  constructor
  · rfl
  · exact (c8_close ⟨none, [⟨"Main", "uid1"⟩, ⟨"System", "uid2"⟩]⟩).1 rfl

/-- C1: decoding an executable container succeeds exactly when the magic
identifier and both version fields match the compiled-in constants, the
decompression routine reports success, and the decompressed size equals
the declared uncompressed size; on success the produced buffer has
exactly the declared size, and otherwise the decode fails with the
format-gate error. -/
theorem c1_codec_gate (uncomp : List Nat → Nat → UncompressResult)
    (buffer : List Nat) (hlen : 16 ≤ buffer.length) :
    (openExecutableAssemblyBinary uncomp buffer = Except.ok (readU32 buffer 12) ↔
      (readU32 buffer 0 = LOOM_BINARY_ID ∧
       readU32 buffer 4 = LOOM_BINARY_VERSION_MAJOR ∧
       readU32 buffer 8 = LOOM_BINARY_VERSION_MINOR ∧
       (uncomp (buffer.drop 16) (readU32 buffer 12)).status = Z_OK ∧
       (uncomp (buffer.drop 16) (readU32 buffer 12)).written = readU32 buffer 12)) ∧
    (∀ n : Nat, openExecutableAssemblyBinary uncomp buffer = Except.ok n →
      n = readU32 buffer 12) ∧
    (¬ (readU32 buffer 0 = LOOM_BINARY_ID ∧
        readU32 buffer 4 = LOOM_BINARY_VERSION_MAJOR ∧
        readU32 buffer 8 = LOOM_BINARY_VERSION_MINOR ∧
        (uncomp (buffer.drop 16) (readU32 buffer 12)).status = Z_OK ∧
        (uncomp (buffer.drop 16) (readU32 buffer 12)).written = readU32 buffer 12) →
      ∃ msg : String, openExecutableAssemblyBinary uncomp buffer = Except.error msg) := by
  unfold openExecutableAssemblyBinary
  by_cases h0 : readU32 buffer 0 = LOOM_BINARY_ID
  · by_cases h4 : readU32 buffer 4 = LOOM_BINARY_VERSION_MAJOR
    · by_cases h8 : readU32 buffer 8 = LOOM_BINARY_VERSION_MINOR
      · by_cases hs : (uncomp (buffer.drop 16) (readU32 buffer 12)).status = Z_OK
        · by_cases hw :
              (uncomp (buffer.drop 16) (readU32 buffer 12)).written = readU32 buffer 12
          · simp [h0, h4, h8, hs, hw]
          · simp [h0, h4, h8, hs, hw]
        · simp [h0, h4, h8, hs]
      · simp [h0, h4, h8]
    · simp [h0, h4]
  · simp [h0]

/-- C1 witness: the spec scenario — a container with magic "LOOM",
major 2, minor 0, declared size 128, whose payload decompresses cleanly
to 128 bytes — decodes to a 128-byte buffer. -/
theorem c1_codec_gate_witness :
    16 ≤ ([76, 79, 79, 77, 2, 0, 0, 0, 0, 0, 0, 0, 128, 0, 0, 0, 9, 9, 9] : List Nat).length ∧
    openExecutableAssemblyBinary (fun _ sz => ⟨0, sz⟩)
      [76, 79, 79, 77, 2, 0, 0, 0, 0, 0, 0, 0, 128, 0, 0, 0, 9, 9, 9] =
      Except.ok 128 := by
  refine ⟨by decide, ?_⟩
  have h := (c1_codec_gate (fun _ sz => ⟨0, sz⟩)
    [76, 79, 79, 77, 2, 0, 0, 0, 0, 0, 0, 0, 128, 0, 0, 0, 9, 9, 9] (by decide)).1
  exact h.mpr (by decide)

theorem lsLuaAllocCounter_cast (w allocated osize nsize : Nat) :
    ((lsLuaAllocCounter w allocated osize nsize : Nat) : Int) =
      ((allocated : Int) + (nsize : Int) - (osize : Int)) % ((2 : Int) ^ w) := by
  have hpos : (0 : Int) < (2 : Int) ^ w := by positivity
  have := Int.emod_nonneg ((allocated : Int) + (nsize : Int) - (osize : Int))
    (ne_of_gt hpos)
  simp [lsLuaAllocCounter, Int.toNat_of_nonneg this]

theorem emod_add_left_emod (x y M : Int) : (x % M + y) % M = (x + y) % M := by
  conv_lhs => rw [Int.add_emod]
  conv_rhs => rw [Int.add_emod]
  rw [Int.emod_emod_of_dvd _ dvd_rfl]

theorem runAllocCounter_emod (w : Nat) (calls : List (Nat × Nat)) (allocated : Nat) :
    (runAllocCounter w allocated calls : Int) % ((2 : Int) ^ w) =
      ((allocated : Int) +
        ((calls.map (fun c => (c.2 : Int))).sum -
          (calls.map (fun c => (c.1 : Int))).sum)) % ((2 : Int) ^ w) := by
  induction calls generalizing allocated with
  | nil => simp [runAllocCounter]
  | cons c rest ih =>
    rw [runAllocCounter, ih]
    rw [lsLuaAllocCounter_cast]
    rw [Int.add_sub_assoc, emod_add_left_emod]
    congr 1
    simp
    ring

/-- C9 counterexample: on a 64-bit build, `open()` creates the VM with
`luaL_newstate()` and does not install the custom counting allocator, so
the claim that every instance opened via `open()` routes every
allocation through the custom allocator is false for the concrete input
`platform64 = true`. -/
theorem c9_counterexample :
    openAllocatorKind true ≠ AllocatorKind.custom := by
  decide

/-- C9 (amended): on non-64-bit builds `open()` installs the custom
allocator `lsLuaAlloc`, and that allocator updates the running byte
counter by `allocated += new_size - old_size` in machine-word (mod
`2 ^ w`) arithmetic — a free being a call with new size zero and a
fresh allocation a call with old size zero — so over any sequence of
calls the counter equals the initial value plus the net allocated
bytes, modulo the word width. -/
theorem c9_allocator :
    openAllocatorKind false = AllocatorKind.custom ∧
    (∀ w allocated osize nsize : Nat, ∀ ptrNull : Bool,
      (lsLuaAlloc w allocated ptrNull osize nsize).1 =
        lsLuaAllocCounter w allocated osize nsize ∧
      ((lsLuaAllocCounter w allocated osize nsize : Nat) : Int) =
        ((allocated : Int) + (nsize : Int) - (osize : Int)) % ((2 : Int) ^ w) ∧
      (nsize = 0 → (lsLuaAlloc w allocated ptrNull osize nsize).2 = AllocAction.free) ∧
      (nsize ≠ 0 → ptrNull = true →
        (lsLuaAlloc w allocated ptrNull osize nsize).2 = AllocAction.alloc nsize) ∧
      (nsize ≠ 0 → ptrNull = false →
        (lsLuaAlloc w allocated ptrNull osize nsize).2 = AllocAction.realloc nsize)) ∧
    (∀ w : Nat, ∀ calls : List (Nat × Nat), ∀ allocated : Nat,
      (runAllocCounter w allocated calls : Int) % ((2 : Int) ^ w) =
        ((allocated : Int) +
          ((calls.map (fun c => (c.2 : Int))).sum -
            (calls.map (fun c => (c.1 : Int))).sum)) % ((2 : Int) ^ w)) := by
  refine ⟨rfl, ?_, ?_⟩
  · intro w allocated osize nsize ptrNull
    refine ⟨?_, lsLuaAllocCounter_cast w allocated osize nsize, ?_, ?_, ?_⟩
    · by_cases h0 : nsize = 0
      · simp [lsLuaAlloc, h0]
      · by_cases hp : ptrNull <;> simp [lsLuaAlloc, h0, hp]
    · intro h0; simp [lsLuaAlloc, h0]
    · intro h0 hp; simp [lsLuaAlloc, h0, hp]
    · intro h0 hp; simp [lsLuaAlloc, h0, hp]
  · intro w calls allocated
    exact runAllocCounter_emod w calls allocated

/-- C9 witness: a concrete run — start at 0, allocate 100 fresh, grow it
to 150, free it — through the amended theorem's aggregate law, at word
width 32. -/
theorem c9_allocator_witness :
    (runAllocCounter 32 0 [(0, 100), (100, 150), (150, 0)] : Int) % ((2 : Int) ^ 32) =
      ((0 : Int) +
        ((([(0, 100), (100, 150), (150, 0)] : List (Nat × Nat)).map
            (fun c => (c.2 : Int))).sum -
          (([(0, 100), (100, 150), (150, 0)] : List (Nat × Nat)).map
            (fun c => (c.1 : Int))).sum)) % ((2 : Int) ^ 32) :=
  c9_allocator.2.2 32 [(0, 100), (100, 150), (150, 0)] 0

theorem cacheOrdinals_length (n : Nat) (types : List LSType)
    (ord out : List (Option LSType))
    (hok : cacheOrdinals n types ord = Except.ok out) :
    out.length = ord.length := by
  induction types generalizing ord with
  | nil =>
    simp only [cacheOrdinals] at hok
    cases hok
    rfl
  | cons t rest ih =>
    simp only [cacheOrdinals] at hok
    by_cases hr : 0 < t.typeID ∧ t.typeID ≤ n
    · rw [if_pos hr] at hok
      have := ih (ord.set t.typeID (some t)) hok
      simpa using this
    · rw [if_neg hr] at hok
      cases hok

theorem cacheOrdinals_untouched (n : Nat) (types : List LSType)
    (ord out : List (Option LSType)) (k : Nat)
    (hok : cacheOrdinals n types ord = Except.ok out)
    (hk : ∀ t ∈ types, t.typeID ≠ k) :
    out.getD k none = ord.getD k none := by
  induction types generalizing ord with
  | nil =>
    simp only [cacheOrdinals] at hok
    cases hok
    rfl
  | cons t rest ih =>
    simp only [cacheOrdinals] at hok
    by_cases hr : 0 < t.typeID ∧ t.typeID ≤ n
    · rw [if_pos hr] at hok
      have h1 := ih (ord.set t.typeID (some t)) hok
        (fun u hu => hk u (List.mem_cons_of_mem t hu))
      rw [h1]
      have hne : t.typeID ≠ k := hk t (List.mem_cons_self t rest)
      rw [List.getD_eq_getElem?_getD, List.getD_eq_getElem?_getD,
        List.getElem?_set_ne hne]
    · rw [if_neg hr] at hok
      cases hok

theorem cacheOrdinals_inrange (n : Nat) (types : List LSType)
    (ord out : List (Option LSType))
    (hok : cacheOrdinals n types ord = Except.ok out) :
    ∀ t ∈ types, 0 < t.typeID ∧ t.typeID ≤ n := by
  induction types generalizing ord with
  | nil => intro t ht; cases ht
  | cons t rest ih =>
    simp only [cacheOrdinals] at hok
    by_cases hr : 0 < t.typeID ∧ t.typeID ≤ n
    · rw [if_pos hr] at hok
      intro u hu
      rcases List.mem_cons.mp hu with h | h
      · subst h; exact hr
      · exact ih (ord.set t.typeID (some t)) hok u h
    · rw [if_neg hr] at hok
      cases hok

theorem cacheOrdinals_hits (n : Nat) (types : List LSType)
    (ord out : List (Option LSType))
    (hok : cacheOrdinals n types ord = Except.ok out)
    (hord : ord.length = n + 1)
    (hnd : (types.map (fun t => t.typeID)).Nodup) :
    ∀ t ∈ types, out.getD t.typeID none = some t := by
  induction types generalizing ord with
  | nil => intro t ht; cases ht
  | cons t rest ih =>
    simp only [cacheOrdinals] at hok
    by_cases hr : 0 < t.typeID ∧ t.typeID ≤ n
    · rw [if_pos hr] at hok
      have hnd2 : (rest.map (fun u => u.typeID)).Nodup := by
        simpa using hnd.of_cons
      intro u hu
      rcases List.mem_cons.mp hu with h | h
      · subst h
        have hne : ∀ v ∈ rest, v.typeID ≠ u.typeID := by
          have h2 := hnd
          simp only [List.map_cons, List.nodup_cons, List.mem_map, not_exists,
            not_and] at h2
          intro v hv hcontra
          exact h2.1 v hv hcontra
        have h1 := cacheOrdinals_untouched n rest (ord.set u.typeID (some u)) out
          u.typeID hok hne
        rw [h1]
        rw [List.getD_eq_getElem?_getD, List.getElem?_set_self
          (by rw [hord]; omega)]
        rfl
      · exact ih (ord.set t.typeID (some t)) hok (by simpa using hord) hnd2 u h
    · rw [if_neg hr] at hok
      cases hok

theorem cacheOrdinals_slot0 (n : Nat) (types : List LSType)
    (ord out : List (Option LSType))
    (hok : cacheOrdinals n types ord = Except.ok out)
    (h0 : ord.getD 0 none = none) :
    out.getD 0 none = none := by
  induction types generalizing ord with
  | nil =>
    simp only [cacheOrdinals] at hok
    cases hok
    exact h0
  | cons t rest ih =>
    simp only [cacheOrdinals] at hok
    by_cases hr : 0 < t.typeID ∧ t.typeID ≤ n
    · rw [if_pos hr] at hok
      refine ih (ord.set t.typeID (some t)) hok ?_
      rw [List.getD_eq_getElem?_getD, List.getElem?_set_ne (by omega)]
      rw [List.getD_eq_getElem?_getD] at h0
      exact h0
    · rw [if_neg hr] at hok
      cases hok

theorem cacheOrdinals_fails (n : Nat) (types : List LSType)
    (ord : List (Option LSType))
    (hbad : ∃ t ∈ types, ¬(0 < t.typeID ∧ t.typeID ≤ n)) :
    cacheOrdinals n types ord =
      Except.error "LSLuaState::cacheAssemblyTypes TypeID out of range" := by
  induction types generalizing ord with
  | nil => rcases hbad with ⟨t, ht, _⟩; cases ht
  | cons t rest ih =>
    by_cases hr : 0 < t.typeID ∧ t.typeID ≤ n
    · simp only [cacheOrdinals, if_pos hr]
      refine ih (ord.set t.typeID (some t)) ?_
      rcases hbad with ⟨u, hu, hbu⟩
      rcases List.mem_cons.mp hu with h | h
      · subst h; exact absurd hr hbu
      · exact ⟨u, h, hbu⟩
    · simp only [cacheOrdinals, if_neg hr]

/-- C6: for a successfully cached assembly whose ordinal IDs are
pairwise distinct (the contiguity invariant the spec assumes of the
toolchain), the ordinal array has `count + 1` slots with slot 0 unused,
and `ordinalTypes[type.id] == type` with `1 <= type.id <= type_count`
for every type; an ordinal ID outside that range makes the cache step
fail the fatal `lmAssert` consistency check. -/
theorem c6_ordinal_invariant (types : List LSType) :
    (∀ out : List (Option LSType),
      (types.map (fun t => t.typeID)).Nodup →
      cacheAssemblyTypes types = Except.ok out →
      out.length = types.length + 1 ∧
      out.getD 0 none = none ∧
      (∀ t ∈ types,
        1 ≤ t.typeID ∧ t.typeID ≤ types.length ∧
        out.getD t.typeID none = some t)) ∧
    ((∃ t ∈ types, ¬(1 ≤ t.typeID ∧ t.typeID ≤ types.length)) →
      cacheAssemblyTypes types =
        Except.error "LSLuaState::cacheAssemblyTypes TypeID out of range") := by
  constructor
  · intro out hnd hok
    have hlen := cacheOrdinals_length types.length types _ out hok
    refine ⟨by simpa using hlen, ?_, ?_⟩
    · exact cacheOrdinals_slot0 types.length types _ out hok (by simp)
    · intro t ht
      have hr := cacheOrdinals_inrange types.length types _ out hok t ht
      exact ⟨hr.1, hr.2,
        cacheOrdinals_hits types.length types _ out hok (by simp) hnd t ht⟩
  · intro hbad
    exact cacheOrdinals_fails types.length types _ (by simpa using hbad)

theorem validatePass_rank (bindings : String → Option NativeTypeBase)
    (types : List LSType) (js : List Nat) :
    ∀ e ∈ (validatePass bindings types js).1, phaseRank e = 1 := by
  induction js with
  | nil => intro e he; cases he
  | cons i rest ih =>
    intro e he
    cases hget : types.get? i with
    | none =>
      simp only [validatePass, hget] at he
      exact ih e he
    | some t =>
      by_cases hm : t.missing
      · simp only [validatePass, hget, hm, if_true] at he
        exact ih e he
      · by_cases hn : (t.isNative || t.hasStaticNativeMember) = true
        · cases hb : bindings t.fullName with
          | none =>
            simp only [validatePass, hget, hm, hn, hb, if_true, if_false,
              Bool.false_eq_true] at he
            cases he
          | some ntb =>
            simp only [validatePass, hget, hm, hn, hb, if_true, if_false,
              Bool.false_eq_true] at he
            by_cases hmm : t.nativeManaged ≠ ntb.managed
            · rw [if_pos hmm] at he
              cases he
            · rw [if_neg hmm] at he
              by_cases hv : ntb.validatesOk = false
              · rw [if_pos hv] at he
                cases he
              · rw [if_neg hv] at he
                rcases List.mem_cons.mp he with h | h
                · subst h; rfl
                · exact ih e h
        · simp only [validatePass, hget, hm, hn, if_false, Bool.false_eq_true] at he
          exact ih e he

theorem validatePass_error_of_prefix (bindings : String → Option NativeTypeBase)
    (types : List LSType) (js1 js2 : List Nat) (i : Nat) (t : LSType)
    (ntb : NativeTypeBase)
    (hpre : ∀ k ∈ js1, validateStepOk bindings types k = true)
    (hget : types.get? i = some t) (hmiss : t.missing = false)
    (hnat : (t.isNative || t.hasStaticNativeMember) = true)
    (hbind : bindings t.fullName = some ntb)
    (hmm : t.nativeManaged ≠ ntb.managed) :
    (validatePass bindings types (js1 ++ i :: js2)).2 = some (mismatchMsg t) := by
  induction js1 with
  | nil =>
    simp only [List.nil_append, validatePass, hget, hmiss, hnat, hbind,
      if_true, if_false, Bool.false_eq_true]
    rw [if_pos hmm]
  | cons k rest ih =>
    have hk := hpre k (List.mem_cons_self k rest)
    have hrest : ∀ j ∈ rest, validateStepOk bindings types j = true :=
      fun j hj => hpre j (List.mem_cons_of_mem k hj)
    cases hgk : types.get? k with
    | none =>
      simp only [List.cons_append, validatePass, hgk]
      exact ih hrest
    | some u =>
      simp only [validateStepOk, hgk] at hk
      by_cases hm : u.missing
      · simp only [List.cons_append, validatePass, hgk, hm, if_true]
        exact ih hrest
      · rw [if_neg (by simp [hm])] at hk
        by_cases hn : (u.isNative || u.hasStaticNativeMember) = true
        · rw [if_pos hn] at hk
          cases hb : bindings u.fullName with
          | none =>
            simp only [hb] at hk
            cases hk
          | some ntb2 =>
            simp only [hb] at hk
            rw [Bool.and_eq_true, beq_iff_eq] at hk
            have hnm : ¬ u.nativeManaged ≠ ntb2.managed := by simp [hk.1]
            have hvv : ¬ ntb2.validatesOk = false := by simp [hk.2]
            simp only [List.cons_append, validatePass, hgk, hm, hn, hb,
              if_true, if_false, Bool.false_eq_true]
            rw [if_neg hnm, if_neg hvv]
            exact ih hrest
        · simp only [List.cons_append, validatePass, hgk, hm, hn, if_false,
            Bool.false_eq_true]
          exact ih hrest

theorem declare_mem_declarePass (types : List LSType) (k : Nat)
    (hk : k < types.length) (hmiss : missAt types k = false) :
    PhaseEvent.declare k ∈ declarePass types := by
  unfold declarePass
  refine List.mem_map_of_mem PhaseEvent.declare ?_
  rw [List.mem_filter]
  exact ⟨List.mem_range.mpr hk, by simp [hmiss]⟩

/-- C3 counterexample: a cohort with a single native type declared
managed whose registered binding is unmanaged.  The load does fail
fatally with the mismatch message, but only after the declare step has
already run for the type — the trace contains its declare event — so
the claim that the load fails "before any declare or initialize step
runs for any type" is false on this input. -/
theorem c3_counterexample :
    (declareAndInit
      (fun n => if n = "app.Foo" then some ⟨false, "Foo", true⟩ else none)
      [⟨1, "app.Foo", none, [], true, false, true, false⟩]).2 =
      some (mismatchMsg ⟨1, "app.Foo", none, [], true, false, true, false⟩) ∧
    PhaseEvent.declare 0 ∈
      (declareAndInit
        (fun n => if n = "app.Foo" then some ⟨false, "Foo", true⟩ else none)
        [⟨1, "app.Foo", none, [], true, false, true, false⟩]).1 := by
  constructor
  · rfl
  · simp [declareAndInit, declareLuaTypes, declarePass, validatePass, missAt,
      mismatchMsg]

/-- C3 (amended): when a non-missing native (or static-native) type's
registered binding disagrees with its declared managed flag — and the
validation pass reaches it, i.e. every earlier index validates cleanly —
the load fails fatally with a message identifying which side (script
declaration vs. native binding) claimed managed and which unmanaged.
The fatal error fires in the second (validation) pass of the declare
phase: every non-missing type of the cohort has already been declared,
but no member-cache, class-initialize or static-initializer step has
run for any type. -/
theorem c3_managed_mismatch (bindings : String → Option NativeTypeBase)
    (types : List LSType) (i : Nat) (t : LSType) (ntb : NativeTypeBase)
    (hpre : ∀ k, k < i → validateStepOk bindings types k = true)
    (hget : types.get? i = some t) (hmiss : t.missing = false)
    (hnat : (t.isNative || t.hasStaticNativeMember) = true)
    (hbind : bindings t.fullName = some ntb)
    (hmm : t.nativeManaged ≠ ntb.managed) :
    (declareAndInit bindings types).2 = some (mismatchMsg t) ∧
    (∀ e ∈ (declareAndInit bindings types).1, phaseRank e ≤ 1) ∧
    (∀ k, k < types.length → missAt types k = false →
      PhaseEvent.declare k ∈ (declareAndInit bindings types).1) := by
  have hi : i < types.length := by
    by_contra hcon
    rw [List.get?_eq_none.mpr (Nat.le_of_not_lt hcon)] at hget
    cases hget
  have hsplit : List.range types.length =
      List.range i ++ i :: List.range' (i + 1) (types.length - i - 1) := by
    have h1 : types.length = types.length - i + i := by omega
    have h2 : types.length - i = (types.length - i - 1) + 1 := by omega
    calc List.range types.length = List.range' 0 types.length :=
          List.range_eq_range' _
      _ = List.range' 0 (types.length - i + i) := by rw [← h1]
      _ = List.range' 0 i ++ List.range' (0 + i) (types.length - i) :=
          (List.range'_append_1 0 i (types.length - i)).symm
      _ = List.range i ++ i :: List.range' (i + 1) (types.length - i - 1) := by
          rw [List.range_eq_range']
          congr 1
          rw [Nat.zero_add, h2, List.range'_succ]
          simp
  have herr : (validatePass bindings types (List.range types.length)).2 =
      some (mismatchMsg t) := by
    rw [hsplit]
    exact validatePass_error_of_prefix bindings types (List.range i) _ i t ntb
      (fun k hk => hpre k (List.mem_range.mp hk)) hget hmiss hnat hbind hmm
  have htrace : declareAndInit bindings types =
      (declarePass types ++ (validatePass bindings types (List.range types.length)).1,
        some (mismatchMsg t)) := by
    simp only [declareAndInit, declareLuaTypes, herr]
  refine ⟨by rw [htrace], ?_, ?_⟩
  · intro e he
    rw [htrace] at he
    rcases List.mem_append.mp he with h | h
    · unfold declarePass at h
      rcases List.mem_map.mp h with ⟨k, _, hk⟩
      subst hk
      norm_num [phaseRank]
    · rw [validatePass_rank bindings types (List.range types.length) e h]
  · intro k hk hmk
    rw [htrace]
    exact List.mem_append_left _ (declare_mem_declarePass types k hk hmk)

/-- C3 witness: instantiation of the amended theorem at a concrete
cohort whose single native type declares unmanaged while its binding is
managed — the fatal error carries the side-identifying message. -/
theorem c3_managed_mismatch_witness :
    (declareAndInit
      (fun n => if n = "app.Bar" then some ⟨true, "Bar", true⟩ else none)
      [⟨1, "app.Bar", none, [], true, false, false, false⟩]).2 =
      some (mismatchMsg ⟨1, "app.Bar", none, [], true, false, false, false⟩) :=
  (c3_managed_mismatch
    (fun n => if n = "app.Bar" then some ⟨true, "Bar", true⟩ else none)
    [⟨1, "app.Bar", none, [], true, false, false, false⟩] 0
    ⟨1, "app.Bar", none, [], true, false, false, false⟩ ⟨true, "Bar", true⟩
    (fun k hk => absurd hk (by omega)) rfl rfl rfl rfl (by decide)).1

theorem rank_of_map_ctor (f : Nat → PhaseEvent) (a : Nat)
    (hf : ∀ k, phaseRank (f k) = a) (L : List Nat) :
    ∀ e ∈ L.map f, phaseRank e = a := by
  intro e he
  rcases List.mem_map.mp he with ⟨k, _, hk⟩
  rw [← hk]
  exact hf k

theorem rank_const_sorted (l : List PhaseEvent) (a : Nat)
    (h : ∀ e ∈ l, phaseRank e = a) :
    (l.map phaseRank).Sorted (· ≤ ·) := by
  induction l with
  | nil => simp
  | cons e rest ih =>
    rw [List.map_cons, List.sorted_cons]
    refine ⟨?_, ih (fun u hu => h u (List.mem_cons_of_mem e hu))⟩
    intro b hb
    rcases List.mem_map.mp hb with ⟨u, hu, hub⟩
    rw [← hub, h e (List.mem_cons_self e rest),
      h u (List.mem_cons_of_mem e hu)]

theorem sorted_rank_append (l1 l2 : List PhaseEvent) (a1 a2 : Nat)
    (ha : a1 ≤ a2)
    (h1 : ∀ e ∈ l1, phaseRank e = a1) (h2 : ∀ e ∈ l2, phaseRank e ≤ a2)
    (hs2 : (l2.map phaseRank).Sorted (· ≤ ·))
    (hlo : ∀ e ∈ l2, a1 ≤ phaseRank e) :
    ((l1 ++ l2).map phaseRank).Sorted (· ≤ ·) := by
  rw [List.map_append]
  refine List.pairwise_append.mpr ⟨rank_const_sorted l1 a1 h1, hs2, ?_⟩
  intro x hx y hy
  rcases List.mem_map.mp hx with ⟨u, hu, hux⟩
  rcases List.mem_map.mp hy with ⟨v, hv, hvy⟩
  rw [← hux, ← hvy, h1 u hu]
  exact hlo v hv

theorem ranks_sorted_generic (A B : List PhaseEvent) (L : List Nat)
    (hA : ∀ e ∈ A, phaseRank e = 0) (hB : ∀ e ∈ B, phaseRank e = 1) :
    ((A ++ B ++ (L.map PhaseEvent.cacheMembers ++ L.map PhaseEvent.initClass ++
      L.map PhaseEvent.staticInit)).map phaseRank).Sorted (· ≤ ·) := by
  have hC : ∀ e ∈ L.map PhaseEvent.cacheMembers, phaseRank e = 2 :=
    rank_of_map_ctor PhaseEvent.cacheMembers 2 (fun _ => rfl) L
  have hD : ∀ e ∈ L.map PhaseEvent.initClass, phaseRank e = 3 :=
    rank_of_map_ctor PhaseEvent.initClass 3 (fun _ => rfl) L
  have hE : ∀ e ∈ L.map PhaseEvent.staticInit, phaseRank e = 4 :=
    rank_of_map_ctor PhaseEvent.staticInit 4 (fun _ => rfl) L
  have htail : ∀ e ∈ B ++ (L.map PhaseEvent.cacheMembers ++
      L.map PhaseEvent.initClass ++ L.map PhaseEvent.staticInit),
      1 ≤ phaseRank e ∧ phaseRank e ≤ 4 := by
    intro e he
    rcases List.mem_append.mp he with h | h
    · rw [hB e h]; omega
    · rcases List.mem_append.mp h with h2 | h2
      · rcases List.mem_append.mp h2 with h3 | h3
        · rw [hC e h3]; omega
        · rw [hD e h3]; omega
      · rw [hE e h2]; omega
  rw [List.append_assoc]
  refine sorted_rank_append _ _ 0 4 (by omega) hA
    (fun e he => (htail e he).2) ?_ (fun e he => le_trans (by omega) (htail e he).1)
  have htail2 : ∀ e ∈ L.map PhaseEvent.cacheMembers ++ L.map PhaseEvent.initClass ++
      L.map PhaseEvent.staticInit, 2 ≤ phaseRank e ∧ phaseRank e ≤ 4 := by
    intro e he
    rcases List.mem_append.mp he with h2 | h2
    · rcases List.mem_append.mp h2 with h3 | h3
      · rw [hC e h3]; omega
      · rw [hD e h3]; omega
    · rw [hE e h2]; omega
  refine sorted_rank_append _ _ 1 4 (by omega) hB
    (fun e he => (htail2 e he).2) ?_ (fun e he => le_trans (by omega) (htail2 e he).1)
  rw [List.append_assoc]
  have htail3 : ∀ e ∈ L.map PhaseEvent.initClass ++ L.map PhaseEvent.staticInit,
      3 ≤ phaseRank e ∧ phaseRank e ≤ 4 := by
    intro e he
    rcases List.mem_append.mp he with h | h
    · rw [hD e h]; omega
    · rw [hE e h]; omega
  refine sorted_rank_append _ _ 2 4 (by omega) hC
    (fun e he => (htail3 e he).2) ?_ (fun e he => le_trans (by omega) (htail3 e he).1)
  refine sorted_rank_append _ _ 3 4 (by omega) hD
    (fun e he => le_of_eq (hE e he)) (rank_const_sorted _ 4 hE)
    (fun e he => le_trans (by omega) (le_of_eq (hE e he).symm))

theorem filter_static_generic (A B : List PhaseEvent) (L : List Nat)
    (hA : ∀ e ∈ A, phaseRank e = 0) (hB : ∀ e ∈ B, phaseRank e = 1) :
    ((A ++ B ++ (L.map PhaseEvent.cacheMembers ++ L.map PhaseEvent.initClass ++
      L.map PhaseEvent.staticInit)).filter (fun e => phaseRank e == 4)) =
      L.map PhaseEvent.staticInit := by
  have hC : ∀ e ∈ L.map PhaseEvent.cacheMembers, phaseRank e = 2 :=
    rank_of_map_ctor PhaseEvent.cacheMembers 2 (fun _ => rfl) L
  have hD : ∀ e ∈ L.map PhaseEvent.initClass, phaseRank e = 3 :=
    rank_of_map_ctor PhaseEvent.initClass 3 (fun _ => rfl) L
  have hE : ∀ e ∈ L.map PhaseEvent.staticInit, phaseRank e = 4 :=
    rank_of_map_ctor PhaseEvent.staticInit 4 (fun _ => rfl) L
  rw [List.filter_append, List.filter_append, List.filter_append,
    List.filter_append]
  rw [List.filter_eq_nil.mpr (fun e he => by simp [hA e he]),
    List.filter_eq_nil.mpr (fun e he => by simp [hB e he]),
    List.filter_eq_nil.mpr (fun e he => by simp [hC e he]),
    List.filter_eq_nil.mpr (fun e he => by simp [hD e he]),
    List.filter_eq_self.mpr (fun e he => by simp [hE e he])]
  simp

/-- C4: when the declare phase completes without a fatal error, the
recorded pipeline over the whole cohort is phase-monotone — every
declare event precedes every validation event, which precede all
member-cache events, which precede all class-initialize events, which
precede all static-initializer events — the static initializers run in
declaration order over exactly the non-missing types, and every
non-missing type receives its declare, class-initialize and
static-initialize steps. -/
theorem c4_pipeline_order (bindings : String → Option NativeTypeBase)
    (types : List LSType)
    (hok : (declareAndInit bindings types).2 = none) :
    ((declareAndInit bindings types).1.map phaseRank).Sorted (· ≤ ·) ∧
    ((declareAndInit bindings types).1.filter (fun e => phaseRank e == 4)) =
      ((List.range types.length).filter (fun i => !missAt types i)).map
        PhaseEvent.staticInit ∧
    (∀ k, k < types.length → missAt types k = false →
      PhaseEvent.declare k ∈ (declareAndInit bindings types).1 ∧
      PhaseEvent.initClass k ∈ (declareAndInit bindings types).1 ∧
      PhaseEvent.staticInit k ∈ (declareAndInit bindings types).1) := by
  cases hv : (validatePass bindings types (List.range types.length)).2 with
  | some e =>
    exfalso
    have hbad : (declareAndInit bindings types).2 = some e := by
      simp only [declareAndInit, declareLuaTypes, hv]
    rw [hbad] at hok
    cases hok
  | none =>
    have htrace : (declareAndInit bindings types).1 =
        declarePass types ++
          (validatePass bindings types (List.range types.length)).1 ++
          (((List.range types.length).filter (fun i => !missAt types i)).map
              PhaseEvent.cacheMembers ++
            ((List.range types.length).filter (fun i => !missAt types i)).map
              PhaseEvent.initClass ++
            ((List.range types.length).filter (fun i => !missAt types i)).map
              PhaseEvent.staticInit) := by
      simp [declareAndInit, declareLuaTypes, hv, initializeLuaTypes,
        List.append_assoc]
    have hA : ∀ e ∈ declarePass types, phaseRank e = 0 := by
      intro e he
      unfold declarePass at he
      rcases List.mem_map.mp he with ⟨k, _, hk⟩
      rw [← hk]
      rfl
    have hB := validatePass_rank bindings types (List.range types.length)
    refine ⟨?_, ?_, ?_⟩
    · rw [htrace]
      exact ranks_sorted_generic _ _ _ hA hB
    · rw [htrace]
      exact filter_static_generic _ _ _ hA hB
    · intro k hk hmk
      have hkl : k ∈ (List.range types.length).filter (fun i => !missAt types i) := by
        rw [List.mem_filter]
        exact ⟨List.mem_range.mpr hk, by simp [hmk]⟩
      rw [htrace]
      refine ⟨?_, ?_, ?_⟩
      · exact List.mem_append_left _
          (List.mem_append_left _ (declare_mem_declarePass types k hk hmk))
      · exact List.mem_append_right _
          (List.mem_append_left _ (List.mem_append_right _
            (List.mem_map_of_mem PhaseEvent.initClass hkl)))
      · exact List.mem_append_right _
          (List.mem_append_right _ (List.mem_map_of_mem PhaseEvent.staticInit hkl))

/-- C4 witness: instantiation at a concrete three-type cohort with no
native types, which declares and initializes without error: its trace is
phase-monotone. -/
theorem c4_pipeline_order_witness :
    ((declareAndInit (fun _ => none)
      [⟨1, "a.A", none, [], false, false, false, false⟩,
       ⟨2, "a.B", none, [], false, false, false, false⟩,
       ⟨3, "a.C", none, [], false, false, false, false⟩]).1.map phaseRank).Sorted
      (· ≤ ·) :=
  (c4_pipeline_order (fun _ => none)
    [⟨1, "a.A", none, [], false, false, false, false⟩,
     ⟨2, "a.B", none, [], false, false, false, false⟩,
     ⟨3, "a.C", none, [], false, false, false, false⟩] (by rfl)).1

theorem getCurrentStackGo_skip_unresolved (pre : List LuaFrame) (u : LuaFrame)
    (post : List LuaFrame) (hu : u.methodLookup = none) :
    ∀ lm : Option Nat,
      getCurrentStackGo lm (pre ++ u :: post) = getCurrentStackGo lm (pre ++ post) := by
  induction pre with
  | nil =>
    intro lm
    simp only [List.nil_append, getCurrentStackGo, hu]
  | cons f rest ih =>
    intro lm
    cases hf : f.methodLookup with
    | none =>
      simp only [List.cons_append, getCurrentStackGo, hf]
      exact ih lm
    | some mb =>
      simp only [List.cons_append, getCurrentStackGo, hf]
      by_cases hc : f.cfunc = true ∧ lm = some mb
      · rw [if_pos hc, if_pos hc]
        exact ih lm
      · rw [if_neg hc, if_neg hc]
        exact congrArg _ (ih (some mb))

theorem getCurrentStackGo_collapse (pre : List LuaFrame) (a b : LuaFrame)
    (post : List LuaFrame) (m : Nat)
    (ha : a.methodLookup = some m) (hb : b.methodLookup = some m)
    (hcf : b.cfunc = true) :
    ∀ lm : Option Nat,
      getCurrentStackGo lm (pre ++ a :: b :: post) =
        getCurrentStackGo lm (pre ++ a :: post) := by
  induction pre with
  | nil =>
    intro lm
    simp only [List.nil_append, getCurrentStackGo, ha]
    by_cases hcoll : a.cfunc = true ∧ lm = some m
    · rw [if_pos hcoll, if_pos hcoll]
      simp [getCurrentStackGo, hb, hcf, hcoll.2]
    · rw [if_neg hcoll, if_neg hcoll]
      simp [getCurrentStackGo, hb, hcf]
  | cons f rest ih =>
    intro lm
    cases hf : f.methodLookup with
    | none =>
      simp only [List.cons_append, getCurrentStackGo, hf]
      exact ih lm
    | some mb =>
      simp only [List.cons_append, getCurrentStackGo, hf]
      by_cases hc : f.cfunc = true ∧ lm = some mb
      · rw [if_pos hc, if_pos hc]
        exact ih lm
      · rw [if_neg hc, if_neg hc]
        exact congrArg _ (ih (some mb))

theorem getCurrentStackGo_resolved (frames : List LuaFrame) :
    ∀ lm : Option Nat, ∀ si ∈ getCurrentStackGo lm frames,
      ∃ f ∈ frames, f.methodLookup = some si.methodBase := by
  induction frames with
  | nil => intro lm si hsi; cases hsi
  | cons f rest ih =>
    intro lm si hsi
    cases hf : f.methodLookup with
    | none =>
      simp only [getCurrentStackGo, hf] at hsi
      rcases ih lm si hsi with ⟨g, hg, hgm⟩
      exact ⟨g, List.mem_cons_of_mem f hg, hgm⟩
    | some mb =>
      simp only [getCurrentStackGo, hf] at hsi
      by_cases hc : f.cfunc = true ∧ lm = some mb
      · rw [if_pos hc] at hsi
        rcases ih lm si hsi with ⟨g, hg, hgm⟩
        exact ⟨g, List.mem_cons_of_mem f hg, hgm⟩
      · rw [if_neg hc] at hsi
        rcases List.mem_cons.mp hsi with h | h
        · subst h
          exact ⟨f, List.mem_cons_self f rest, hf⟩
        · rcases ih (some mb) si h with ⟨g, hg, hgm⟩
          exact ⟨g, List.mem_cons_of_mem f hg, hgm⟩

/-- C7: in the captured trace (innermost first), a frame whose callable
is not found in the method-lookup table contributes nothing (deleting it
leaves the trace unchanged), a C-function trampoline frame adjacent to a
frame resolving to the same method metadata contributes nothing (the
pair yields exactly one frame for the logical call), and every retained
trace entry corresponds to a frame resolved through the method-lookup
table. -/
theorem c7_traceback_collapse (pre post : List LuaFrame) (u a b : LuaFrame)
    (m : Nat) (hu : u.methodLookup = none)
    (ha : a.methodLookup = some m) (hb : b.methodLookup = some m)
    (hcf : b.cfunc = true) :
    getCurrentStack (pre ++ u :: post) = getCurrentStack (pre ++ post) ∧
    getCurrentStack (pre ++ a :: b :: post) = getCurrentStack (pre ++ a :: post) ∧
    (∀ frames : List LuaFrame, ∀ si ∈ getCurrentStack frames,
      ∃ f ∈ frames, f.methodLookup = some si.methodBase) :=
  ⟨getCurrentStackGo_skip_unresolved pre u post hu none,
   getCurrentStackGo_collapse pre a b post m ha hb hcf none,
   fun frames => getCurrentStackGo_resolved frames none⟩

/-- C7 witness: a script frame wrapped by a C trampoline resolving to
the same metadata, with an unresolved VM-internal frame alongside —
instantiated from the theorem at concrete frames. -/
theorem c7_traceback_collapse_witness :
    getCurrentStack ([] ++ ⟨false, none, false, "=[C]", -1⟩ :: []) =
      getCurrentStack ([] ++ []) ∧
    getCurrentStack ([] ++ ⟨false, some 7, false, "main.ls", 10⟩ ::
        ⟨true, some 7, true, "=[C]", -1⟩ :: []) =
      getCurrentStack ([] ++ ⟨false, some 7, false, "main.ls", 10⟩ :: []) := by
  have h := c7_traceback_collapse [] [] ⟨false, none, false, "=[C]", -1⟩
    ⟨false, some 7, false, "main.ls", 10⟩ ⟨true, some 7, true, "=[C]", -1⟩
    7 rfl rfl rfl rfl
  exact ⟨h.1, h.2.1⟩

/-- C6 witness: a two-type assembly with ordinal IDs 2 and 1 caches into
a 3-slot array with slot 0 unused and each type at its own ordinal
slot. -/
theorem c6_ordinal_invariant_witness :
    ([none, some (⟨1, "system.Object", none, [], false, false, false, false⟩ : LSType),
      some (⟨2, "system.Null", none, [], false, false, false, false⟩ : LSType)] :
        List (Option LSType)).length =
      ([⟨2, "system.Null", none, [], false, false, false, false⟩,
        ⟨1, "system.Object", none, [], false, false, false, false⟩] :
          List LSType).length + 1 ∧
    ([none, some (⟨1, "system.Object", none, [], false, false, false, false⟩ : LSType),
      some (⟨2, "system.Null", none, [], false, false, false, false⟩ : LSType)] :
        List (Option LSType)).getD 0 none = none ∧
    ([none, some (⟨1, "system.Object", none, [], false, false, false, false⟩ : LSType),
      some (⟨2, "system.Null", none, [], false, false, false, false⟩ : LSType)] :
        List (Option LSType)).getD
      (⟨2, "system.Null", none, [], false, false, false, false⟩ : LSType).typeID none =
      some ⟨2, "system.Null", none, [], false, false, false, false⟩ := by
  have h := (c6_ordinal_invariant
    [⟨2, "system.Null", none, [], false, false, false, false⟩,
     ⟨1, "system.Object", none, [], false, false, false, false⟩]).1
    [none, some ⟨1, "system.Object", none, [], false, false, false, false⟩,
     some ⟨2, "system.Null", none, [], false, false, false, false⟩]
    (by decide) (by rfl)
  exact ⟨h.1, h.2.1,
    (h.2.2 ⟨2, "system.Null", none, [], false, false, false, false⟩ (by simp)).2.2⟩

theorem lt_length_of_missAt (ts : List LSType) (j : Nat)
    (h : missAt ts j = true) : j < ts.length := by
  by_contra hcon
  rw [missAt, List.get?_eq_none.mpr (Nat.le_of_not_lt hcon)] at h
  cases h

theorem lt_length_of_impOf_mem (ts : List LSType) (t m : Nat)
    (h : m ∈ impOf ts t) : t < ts.length := by
  by_contra hcon
  rw [impOf, List.get?_eq_none.mpr (Nat.le_of_not_lt hcon)] at h
  cases h

theorem length_setMissingAt (ts : List LSType) (i : Nat) :
    (setMissingAt ts i).length = ts.length := by
  unfold setMissingAt
  cases hg : ts.get? i with
  | none => rfl
  | some t => simp

theorem missAt_setMissingAt_self (ts : List LSType) (i : Nat)
    (h : i < ts.length) : missAt (setMissingAt ts i) i = true := by
  unfold setMissingAt
  cases hg : ts.get? i with
  | none =>
    exact absurd (List.get?_eq_none.mp hg) (by omega)
  | some t =>
    rw [missAt, List.get?_eq_getElem?, List.getElem?_set_self (by simpa using h)]
    rfl

theorem missAt_setMissingAt_of_ne (ts : List LSType) (i j : Nat) (h : j ≠ i) :
    missAt (setMissingAt ts i) j = missAt ts j := by
  unfold setMissingAt
  cases hg : ts.get? i with
  | none => rfl
  | some t =>
    rw [missAt, missAt, List.get?_eq_getElem?, List.get?_eq_getElem?,
      List.getElem?_set_ne (Ne.symm h)]

theorem missAt_setMissingAt_mono (ts : List LSType) (i j : Nat)
    (h : missAt ts j = true) : missAt (setMissingAt ts i) j = true := by
  by_cases hij : j = i
  · subst hij
    exact missAt_setMissingAt_self ts j (lt_length_of_missAt ts j h)
  · rw [missAt_setMissingAt_of_ne ts i j hij]
    exact h

theorem sameStatics_refl (ts : List LSType) : sameStatics ts ts :=
  fun _ => rfl

theorem sameStatics_trans {ts1 ts2 ts3 : List LSType}
    (h1 : sameStatics ts1 ts2) (h2 : sameStatics ts2 ts3) :
    sameStatics ts1 ts3 :=
  fun j => (h1 j).trans (h2 j)

theorem setMissingAt_sameStatics (ts : List LSType) (i : Nat) :
    sameStatics ts (setMissingAt ts i) := by
  intro j
  cases hg : ts.get? i with
  | none =>
    have hset : setMissingAt ts i = ts := by
      simp only [setMissingAt, hg]
    rw [hset]
  | some t =>
    have hset : setMissingAt ts i = ts.set i { t with missing := true } := by
      simp only [setMissingAt, hg]
    rw [hset]
    by_cases hij : j = i
    · subst hij
      have hj : j < ts.length := by
        by_contra hcon
        rw [List.get?_eq_none.mpr (Nat.le_of_not_lt hcon)] at hg
        cases hg
      rw [hg, List.get?_eq_getElem?, List.getElem?_set_self (by simpa using hj)]
      rfl
    · simp only [List.get?_eq_getElem?]
      rw [List.getElem?_set_ne (Ne.symm hij)]

theorem sameStatics_length {ts ts2 : List LSType} (h : sameStatics ts ts2) :
    ts.length = ts2.length := by
  by_contra hcon
  rcases Nat.lt_or_ge ts.length ts2.length with hlt | hge
  · have h1 := h ts.length
    rw [List.get?_eq_none.mpr (le_refl ts.length), List.get?_eq_get hlt] at h1
    simp at h1
  · have hlt2 : ts2.length < ts.length := by omega
    have h1 := h ts2.length
    rw [List.get?_eq_get hlt2, List.get?_eq_none.mpr (le_refl ts2.length)] at h1
    simp at h1

theorem impOf_congr {ts ts2 : List LSType} (h : sameStatics ts ts2) (j : Nat) :
    impOf ts j = impOf ts2 j := by
  have hj := h j
  unfold impOf
  cases hg : ts.get? j with
  | none =>
    rw [hg] at hj
    cases hg2 : ts2.get? j with
    | none => rfl
    | some u => rw [hg2] at hj; cases hj
  | some t =>
    rw [hg] at hj
    cases hg2 : ts2.get? j with
    | none => rw [hg2] at hj; cases hj
    | some u =>
      rw [hg2] at hj
      have hcl : clearMiss t = clearMiss u := by
        simpa using hj
      have himp : t.importIdxs = u.importIdxs := by
        have h2 := congrArg LSType.importIdxs hcl
        simpa [clearMiss] using h2
      simp [himp]

theorem baseChain_congr {ts ts2 : List LSType} (h : sameStatics ts ts2) :
    ∀ fuel : Nat, ∀ o : Option Nat, baseChain ts fuel o = baseChain ts2 fuel o := by
  intro fuel
  induction fuel with
  | zero => intro o; rfl
  | succ fuel ih =>
    intro o
    cases o with
    | none => rfl
    | some i =>
      have hj := h i
      cases hg : ts.get? i with
      | none =>
        rw [hg] at hj
        cases hg2 : ts2.get? i with
        | none =>
          have hgE := hg
          have hg2E := hg2
          rw [List.get?_eq_getElem?] at hgE hg2E
          simp [baseChain, hg, hg2, hgE, hg2E]
        | some u => rw [hg2] at hj; cases hj
      | some t =>
        rw [hg] at hj
        cases hg2 : ts2.get? i with
        | none => rw [hg2] at hj; cases hj
        | some u =>
          rw [hg2] at hj
          have hcl : clearMiss t = clearMiss u := by simpa using hj
          have hbase : t.baseIdx = u.baseIdx := by
            have h2 := congrArg LSType.baseIdx hcl
            simpa [clearMiss] using h2
          have hgE := hg
          have hg2E := hg2
          rw [List.get?_eq_getElem?] at hgE hg2E
          simp only [baseChain, hg, hg2, hgE, hg2E, hbase, ih]

theorem baseWalk_iff_chain (ts : List LSType) :
    ∀ fuel : Nat, ∀ o : Option Nat,
      baseWalk ts fuel o = true ↔
        ∃ a ∈ baseChain ts fuel o, missAt ts a = true := by
  intro fuel
  induction fuel with
  | zero =>
    intro o
    simp [baseWalk, baseChain]
  | succ fuel ih =>
    intro o
    cases o with
    | none => simp [baseWalk, baseChain]
    | some i =>
      cases hg : ts.get? i with
      | none =>
        have hgE := hg
        rw [List.get?_eq_getElem?] at hgE
        simp [baseWalk, baseChain, hg, hgE]
      | some t =>
        have hg0 := hg
        have hgE := hg
        rw [List.get?_eq_getElem?] at hgE
        simp only [baseWalk, baseChain, hg0, hgE, Bool.or_eq_true, List.mem_cons]
        constructor
        · intro hw
          rcases hw with hmiss | hrec
          · exact ⟨i, Or.inl rfl, by rw [missAt, hg0]; simpa using hmiss⟩
          · rcases (ih t.baseIdx).mp hrec with ⟨a, ha, hma⟩
            exact ⟨a, Or.inr ha, hma⟩
        · rintro ⟨a, ha | ha, hma⟩
          · subst ha
            rw [missAt, hg0] at hma
            exact Or.inl (by simpa using hma)
          · exact Or.inr ((ih t.baseIdx).mpr ⟨a, ha, hma⟩)

theorem countLive_cons (t : LSType) (tl : List LSType) :
    countLive (t :: tl) = (if t.missing then 0 else 1) + countLive tl := by
  cases h : t.missing with
  | true => simp [countLive, List.filter_cons, h]
  | false => simp [countLive, List.filter_cons, h, Nat.add_comm]

theorem countLive_le_length (ts : List LSType) : countLive ts ≤ ts.length := by
  unfold countLive
  exact List.length_filter_le _ _

theorem setMissingAt_cons_succ (t : LSType) (tl : List LSType) (i : Nat) :
    setMissingAt (t :: tl) (i + 1) = t :: setMissingAt tl i := by
  have hcons : (t :: tl).get? (i + 1) = tl.get? i := rfl
  cases hg : tl.get? i with
  | none =>
    have h1 : setMissingAt (t :: tl) (i + 1) = t :: tl := by
      simp only [setMissingAt, hcons, hg]
    have h2 : setMissingAt tl i = tl := by
      simp only [setMissingAt, hg]
    rw [h1, h2]
  | some u =>
    have h1 : setMissingAt (t :: tl) (i + 1) =
        (t :: tl).set (i + 1) { u with missing := true } := by
      simp only [setMissingAt, hcons, hg]
    have h2 : setMissingAt tl i = tl.set i { u with missing := true } := by
      simp only [setMissingAt, hg]
    rw [h1, h2]
    rfl

theorem missAt_cons_succ (t : LSType) (tl : List LSType) (j : Nat) :
    missAt (t :: tl) (j + 1) = missAt tl j := rfl

theorem countLive_setMissingAt_eq (ts : List LSType) :
    ∀ i : Nat, missAt ts i = false → i < ts.length →
      countLive (setMissingAt ts i) + 1 = countLive ts := by
  induction ts with
  | nil => intro i _ h; simp at h
  | cons t tl ih =>
    intro i hmiss hlen
    cases i with
    | zero =>
      have hm : t.missing = false := by
        rw [missAt, List.get?] at hmiss
        simpa using hmiss
      have hset : setMissingAt (t :: tl) 0 = { t with missing := true } :: tl := by
        unfold setMissingAt
        simp [List.get?, List.set]
      rw [hset, countLive_cons, countLive_cons, hm]
      simp
      omega
    | succ i =>
      rw [setMissingAt_cons_succ, countLive_cons, countLive_cons]
      have := ih i (by rw [← missAt_cons_succ t tl i]; exact hmiss)
        (by simpa using Nat.lt_of_succ_lt_succ hlen)
      omega

theorem countLive_setMissingAt_le (ts : List LSType) (i : Nat) :
    countLive (setMissingAt ts i) ≤ countLive ts := by
  by_cases hlen : i < ts.length
  · cases hmiss : missAt ts i with
    | false =>
      have := countLive_setMissingAt_eq ts i hmiss hlen
      omega
    | true =>
      have heq : setMissingAt ts i = ts := by
        cases hg : ts.get? i with
        | none => simp only [setMissingAt, hg]
        | some t =>
          rw [missAt, hg] at hmiss
          have ht : t.missing = true := by simpa using hmiss
          have hid : ({ t with missing := true } : LSType) = t := by
            cases t
            simp_all
          have hset : setMissingAt ts i = ts.set i { t with missing := true } := by
            simp only [setMissingAt, hg]
          rw [hset, hid]
          apply List.ext_getElem?
          intro j
          by_cases hij : i = j
          · subst hij
            rw [List.getElem?_set_self hlen]
            rw [← List.get?_eq_getElem?, hg]
          · rw [List.getElem?_set_ne hij]
      rw [heq]
  · have heq : setMissingAt ts i = ts := by
      simp only [setMissingAt, List.get?_eq_none.mpr (Nat.le_of_not_lt hlen)]
    rw [heq]

theorem mimRun_skip (fuel m : Nat) (st : List LSType) (i : Nat) (rest : List Nat)
    (hmi : missAt st i = true) :
    markImportedMissingRun (fuel + 1) m st (i :: rest) =
      markImportedMissingRun fuel m st rest := by
  simp only [markImportedMissingRun, hmi, if_true]

theorem mimRun_mark (fuel m : Nat) (st : List LSType) (i : Nat) (rest : List Nat)
    (hmi : missAt st i = false) (him : m ∈ impOf st i) :
    markImportedMissingRun (fuel + 1) m st (i :: rest) =
      markImportedMissingRun fuel m
        (markImportedMissingRun fuel i (setMissingAt st i)
          (List.range (setMissingAt st i).length)) rest := by
  simp only [markImportedMissingRun, hmi, Bool.false_eq_true, if_false]
  rw [if_pos him]

theorem mimRun_noimp (fuel m : Nat) (st : List LSType) (i : Nat) (rest : List Nat)
    (hmi : missAt st i = false) (him : m ∉ impOf st i) :
    markImportedMissingRun (fuel + 1) m st (i :: rest) =
      markImportedMissingRun fuel m st rest := by
  simp only [markImportedMissingRun, hmi, Bool.false_eq_true, if_false]
  rw [if_neg him]

theorem mimRun_sameStatics :
    ∀ fuel m : Nat, ∀ st : List LSType, ∀ js : List Nat,
      sameStatics st (markImportedMissingRun fuel m st js) := by
  intro fuel
  induction fuel with
  | zero => intro m st js; exact sameStatics_refl st
  | succ fuel ih =>
    intro m st js
    cases js with
    | nil => exact sameStatics_refl st
    | cons i rest =>
      cases hmi : missAt st i with
      | true =>
        rw [mimRun_skip fuel m st i rest hmi]
        exact ih m st rest
      | false =>
        by_cases him : m ∈ impOf st i
        · rw [mimRun_mark fuel m st i rest hmi him]
          exact sameStatics_trans (setMissingAt_sameStatics st i)
            (sameStatics_trans (ih i (setMissingAt st i) _)
              (ih m _ rest))
        · rw [mimRun_noimp fuel m st i rest hmi him]
          exact ih m st rest

theorem mimRun_mono :
    ∀ fuel m : Nat, ∀ st : List LSType, ∀ js : List Nat, ∀ j : Nat,
      missAt st j = true →
      missAt (markImportedMissingRun fuel m st js) j = true := by
  intro fuel
  induction fuel with
  | zero => intro m st js j h; exact h
  | succ fuel ih =>
    intro m st js j h
    cases js with
    | nil => exact h
    | cons i rest =>
      cases hmi : missAt st i with
      | true =>
        rw [mimRun_skip fuel m st i rest hmi]
        exact ih m st rest j h
      | false =>
        by_cases him : m ∈ impOf st i
        · rw [mimRun_mark fuel m st i rest hmi him]
          exact ih m _ rest j (ih i _ _ j (missAt_setMissingAt_mono st i j h))
        · rw [mimRun_noimp fuel m st i rest hmi him]
          exact ih m st rest j h

theorem mimRun_countLive_le :
    ∀ fuel m : Nat, ∀ st : List LSType, ∀ js : List Nat,
      countLive (markImportedMissingRun fuel m st js) ≤ countLive st := by
  intro fuel
  induction fuel with
  | zero => intro m st js; exact le_refl _
  | succ fuel ih =>
    intro m st js
    cases js with
    | nil => exact le_refl _
    | cons i rest =>
      cases hmi : missAt st i with
      | true =>
        rw [mimRun_skip fuel m st i rest hmi]
        exact ih m st rest
      | false =>
        by_cases him : m ∈ impOf st i
        · rw [mimRun_mark fuel m st i rest hmi him]
          exact le_trans (ih m _ rest)
            (le_trans (ih i _ _) (countLive_setMissingAt_le st i))
        · rw [mimRun_noimp fuel m st i rest hmi him]
          exact ih m st rest

theorem mimRun_length (fuel m : Nat) (st : List LSType) (js : List Nat) :
    (markImportedMissingRun fuel m st js).length = st.length :=
  (sameStatics_length (mimRun_sameStatics fuel m st js)).symm

theorem Propagated_transfer {ts ts2 : List LSType} (q : Nat)
    (hp : Propagated ts q) (hs : sameStatics ts ts2)
    (hm : ∀ j : Nat, missAt ts j = true → missAt ts2 j = true) :
    Propagated ts2 q := by
  intro i hi hfalse
  rw [← impOf_congr hs i]
  refine hp i (by rw [sameStatics_length hs]; exact hi) ?_
  cases hmiss : missAt ts i with
  | false => rfl
  | true => rw [hm i hmiss] at hfalse; cases hfalse

theorem mimRun_post :
    ∀ fuel m : Nat, ∀ st : List LSType, ∀ js : List Nat,
      1 + js.length + (st.length + 1) * countLive st ≤ fuel →
      (∀ j ∈ js, missAt (markImportedMissingRun fuel m st js) j = false →
        m ∉ impOf (markImportedMissingRun fuel m st js) j) ∧
      (∀ q : Nat, missAt st q = false →
        missAt (markImportedMissingRun fuel m st js) q = true →
        Propagated (markImportedMissingRun fuel m st js) q) := by
  intro fuel
  induction fuel with
  | zero => intro m st js hfuel; omega
  | succ fuel ih =>
    intro m st js hfuel
    cases js with
    | nil =>
      refine ⟨fun j hj => absurd hj (List.not_mem_nil j), ?_⟩
      intro q hq1 hq2
      rw [show markImportedMissingRun (fuel + 1) m st [] = st from rfl] at hq2
      rw [hq1] at hq2
      cases hq2
    | cons i rest =>
      cases hmi : missAt st i with
      | true =>
        rw [mimRun_skip fuel m st i rest hmi]
        have hfuel2 : 1 + rest.length + (st.length + 1) * countLive st ≤ fuel := by
          simp only [List.length_cons] at hfuel
          omega
        have IH := ih m st rest hfuel2
        refine ⟨?_, IH.2⟩
        intro j hj hjf
        rcases List.mem_cons.mp hj with hji | hjr
        · subst hji
          rw [mimRun_mono fuel m st rest j hmi] at hjf
          cases hjf
        · exact IH.1 j hjr hjf
      | false =>
        by_cases him : m ∈ impOf st i
        · rw [mimRun_mark fuel m st i rest hmi him]
          have hilen : i < st.length :=
            lt_length_of_impOf_mem st i m him
          have hlen2 : (setMissingAt st i).length = st.length :=
            length_setMissingAt st i
          have hcl2 : countLive (setMissingAt st i) + 1 = countLive st :=
            countLive_setMissingAt_eq st i hmi hilen
          have hfuel1 : 1 + (List.range (setMissingAt st i).length).length +
              ((setMissingAt st i).length + 1) * countLive (setMissingAt st i) ≤
                fuel := by
            rw [List.length_range, hlen2]
            simp only [List.length_cons] at hfuel
            have hcl := countLive_setMissingAt_le st i
            nlinarith [hfuel, hcl2]
          have IH1 := ih i (setMissingAt st i)
            (List.range (setMissingAt st i).length) hfuel1
          have hst3s : sameStatics (setMissingAt st i)
              (markImportedMissingRun fuel i (setMissingAt st i)
                (List.range (setMissingAt st i).length)) :=
            mimRun_sameStatics fuel i _ _
          have hst3len : (markImportedMissingRun fuel i (setMissingAt st i)
              (List.range (setMissingAt st i).length)).length = st.length := by
            rw [mimRun_length, hlen2]
          have hcl3 : countLive (markImportedMissingRun fuel i (setMissingAt st i)
              (List.range (setMissingAt st i).length)) ≤
                countLive (setMissingAt st i) :=
            mimRun_countLive_le fuel i _ _
          have hfuel2 : 1 + rest.length +
              ((markImportedMissingRun fuel i (setMissingAt st i)
                (List.range (setMissingAt st i).length)).length + 1) *
                countLive (markImportedMissingRun fuel i (setMissingAt st i)
                  (List.range (setMissingAt st i).length)) ≤ fuel := by
            rw [hst3len]
            simp only [List.length_cons] at hfuel
            nlinarith [hfuel, hcl2, hcl3]
          have IH2 := ih m _ rest hfuel2
          have hProp3 : Propagated (markImportedMissingRun fuel i (setMissingAt st i)
              (List.range (setMissingAt st i).length)) i := by
            intro j hj hjf
            refine IH1.1 j (List.mem_range.mpr ?_) hjf
            rw [mimRun_length] at hj
            exact hj
          have hmonoR : ∀ j : Nat,
              missAt (markImportedMissingRun fuel i (setMissingAt st i)
                (List.range (setMissingAt st i).length)) j = true →
              missAt (markImportedMissingRun fuel m
                (markImportedMissingRun fuel i (setMissingAt st i)
                  (List.range (setMissingAt st i).length)) rest) j = true :=
            fun j hj => mimRun_mono fuel m _ rest j hj
          have hsR : sameStatics (markImportedMissingRun fuel i (setMissingAt st i)
              (List.range (setMissingAt st i).length))
              (markImportedMissingRun fuel m
                (markImportedMissingRun fuel i (setMissingAt st i)
                  (List.range (setMissingAt st i).length)) rest) :=
            mimRun_sameStatics fuel m _ rest
          refine ⟨?_, ?_⟩
          · intro j hj hjf
            rcases List.mem_cons.mp hj with hji | hjr
            · subst hji
              have h2 : missAt (setMissingAt st j) j = true :=
                missAt_setMissingAt_self st j hilen
              have h3 := mimRun_mono fuel j (setMissingAt st j)
                (List.range (setMissingAt st j).length) j h2
              have h4 := hmonoR j h3
              rw [h4] at hjf
              cases hjf
            · exact IH2.1 j hjr hjf
          · intro q hq1 hq2
            by_cases h3 : missAt (markImportedMissingRun fuel i (setMissingAt st i)
                (List.range (setMissingAt st i).length)) q = true
            · by_cases h2 : missAt (setMissingAt st i) q = true
              · by_cases hqi : q = i
                · subst hqi
                  exact Propagated_transfer q hProp3 hsR hmonoR
                · rw [missAt_setMissingAt_of_ne st i q hqi] at h2
                  rw [hq1] at h2
                  cases h2
              · have h2f : missAt (setMissingAt st i) q = false := by
                  cases hx : missAt (setMissingAt st i) q with
                  | false => rfl
                  | true => exact absurd hx h2
                exact Propagated_transfer q (IH1.2 q h2f h3) hsR hmonoR
            · have h3f : missAt (markImportedMissingRun fuel i (setMissingAt st i)
                  (List.range (setMissingAt st i).length)) q = false := by
                cases hx : missAt (markImportedMissingRun fuel i (setMissingAt st i)
                    (List.range (setMissingAt st i).length)) q with
                | false => rfl
                | true => exact absurd hx h3
              exact IH2.2 q h3f hq2
        · rw [mimRun_noimp fuel m st i rest hmi him]
          have hfuel2 : 1 + rest.length + (st.length + 1) * countLive st ≤ fuel := by
            simp only [List.length_cons] at hfuel
            omega
          have IH := ih m st rest hfuel2
          refine ⟨?_, IH.2⟩
          intro j hj hjf
          rcases List.mem_cons.mp hj with hji | hjr
          · subst hji
            rw [← impOf_congr (mimRun_sameStatics fuel m st rest) j]
            exact him
          · exact IH.1 j hjr hjf

theorem finalizeScan_incomplete (st : List LSType) (b : Bool) (j : Nat)
    (rest : List Nat)
    (h : (baseWalk st (st.length + 1) (some j) || importMissing st j) = true) :
    finalizeScan st b (j :: rest) =
      finalizeScan
        (markImportedMissingRun (mimFuel (setMissingAt st j).length) j
          (setMissingAt st j) (List.range (setMissingAt st j).length)) true rest := by
  simp only [finalizeScan, h, if_true]

theorem finalizeScan_skip (st : List LSType) (b : Bool) (j : Nat) (rest : List Nat)
    (h : (baseWalk st (st.length + 1) (some j) || importMissing st j) = false) :
    finalizeScan st b (j :: rest) = finalizeScan st b rest := by
  simp only [finalizeScan, h, Bool.false_eq_true, if_false]

theorem finalizeScan_sameStatics :
    ∀ js : List Nat, ∀ st : List LSType, ∀ b : Bool,
      sameStatics st (finalizeScan st b js).1 := by
  intro js
  induction js with
  | nil => intro st b; exact sameStatics_refl st
  | cons j rest ih =>
    intro st b
    cases hcond : (baseWalk st (st.length + 1) (some j) || importMissing st j) with
    | true =>
      rw [finalizeScan_incomplete st b j rest hcond]
      exact sameStatics_trans (setMissingAt_sameStatics st j)
        (sameStatics_trans (mimRun_sameStatics _ j _ _) (ih _ true))
    | false =>
      rw [finalizeScan_skip st b j rest hcond]
      exact ih st b

theorem finalizeScan_mono :
    ∀ js : List Nat, ∀ st : List LSType, ∀ b : Bool, ∀ q : Nat,
      missAt st q = true → missAt (finalizeScan st b js).1 q = true := by
  intro js
  induction js with
  | nil => intro st b q h; exact h
  | cons j rest ih =>
    intro st b q h
    cases hcond : (baseWalk st (st.length + 1) (some j) || importMissing st j) with
    | true =>
      rw [finalizeScan_incomplete st b j rest hcond]
      exact ih _ true q (mimRun_mono _ j _ _ q (missAt_setMissingAt_mono st j q h))
    | false =>
      rw [finalizeScan_skip st b j rest hcond]
      exact ih st b q h

theorem finalizeScan_length (js : List Nat) (st : List LSType) (b : Bool) :
    (finalizeScan st b js).1.length = st.length :=
  (sameStatics_length (finalizeScan_sameStatics js st b)).symm

theorem notIncomplete_missFalse (st : List LSType) (j : Nat)
    (h : (baseWalk st (st.length + 1) (some j) || importMissing st j) = false) :
    missAt st j = false := by
  rw [Bool.or_eq_false_iff] at h
  have hw := h.1
  cases hg : st.get? j with
  | none => rw [missAt, hg]; rfl
  | some t =>
    have hgE := hg
    rw [List.get?_eq_getElem?] at hgE
    simp only [baseWalk, hg, hgE, Bool.or_eq_false_iff] at hw
    rw [missAt, hg]
    simpa using hw.1

theorem baseChain_lt_length (ts : List LSType) (t : Nat)
    (hex : ∃ a ∈ baseChain ts (ts.length + 1) (some t), missAt ts a = true) :
    t < ts.length := by
  rcases hex with ⟨a, ha, _⟩
  cases hg : ts.get? t with
  | none =>
    have hgE := hg
    rw [List.get?_eq_getElem?] at hgE
    have hnil : baseChain ts (ts.length + 1) (some t) = [] := by
      simp only [baseChain, hg, hgE]
    rw [hnil] at ha
    cases ha
  | some u =>
    by_contra hcon
    rw [List.get?_eq_none.mpr (Nat.le_of_not_lt hcon)] at hg
    cases hg

theorem mimFuel_adequate (st2 : List LSType) :
    1 + (List.range st2.length).length + (st2.length + 1) * countLive st2 ≤
      mimFuel st2.length := by
  rw [List.length_range, mimFuel]
  have hcl := countLive_le_length st2
  nlinarith

theorem finalizeScan_marks_base :
    ∀ js : List Nat, ∀ st : List LSType, ∀ b : Bool, ∀ t : Nat,
      t ∈ js →
      (∃ a ∈ baseChain st (st.length + 1) (some t), missAt st a = true) →
      missAt (finalizeScan st b js).1 t = true := by
  intro js
  induction js with
  | nil => intro st b t ht hex; cases ht
  | cons j rest ih =>
    intro st b t ht hex
    rcases List.mem_cons.mp ht with htj | htr
    · subst htj
      have hcond : (baseWalk st (st.length + 1) (some t) || importMissing st t) = true := by
        rw [Bool.or_eq_true]
        exact Or.inl ((baseWalk_iff_chain st (st.length + 1) (some t)).mpr hex)
      rw [finalizeScan_incomplete st b t rest hcond]
      have htlen : t < st.length := baseChain_lt_length st t hex
      have h2 : missAt (setMissingAt st t) t = true :=
        missAt_setMissingAt_self st t htlen
      exact finalizeScan_mono rest _ true t (mimRun_mono _ t _ _ t h2)
    · cases hcond : (baseWalk st (st.length + 1) (some j) || importMissing st j) with
      | true =>
        rw [finalizeScan_incomplete st b j rest hcond]
        have hs : sameStatics st
            (markImportedMissingRun (mimFuel (setMissingAt st j).length) j
              (setMissingAt st j) (List.range (setMissingAt st j).length)) :=
          sameStatics_trans (setMissingAt_sameStatics st j)
            (mimRun_sameStatics _ j _ _)
        refine ih _ true t htr ?_
        rcases hex with ⟨a, ha, hma⟩
        refine ⟨a, ?_, ?_⟩
        · rw [← baseChain_congr hs, ← sameStatics_length hs]
          exact ha
        · exact mimRun_mono _ j _ _ a (missAt_setMissingAt_mono st j a hma)
      | false =>
        rw [finalizeScan_skip st b j rest hcond]
        exact ih st b t htr hex

theorem finalizeScan_closed :
    ∀ js : List Nat, ∀ st : List LSType, ∀ b : Bool,
      ImpInv st js →
      ∀ t m : Nat, missAt (finalizeScan st b js).1 t = false →
        m ∈ impOf (finalizeScan st b js).1 t →
        missAt (finalizeScan st b js).1 m = false := by
  intro js
  induction js with
  | nil =>
    intro st b hinv t m h1 h2
    cases hx : missAt (finalizeScan st b []).1 m with
    | false => rfl
    | true =>
      exact absurd (hinv t m h1 h2 hx) (List.not_mem_nil m)
  | cons j rest ih =>
    intro st b hinv t m h1 h2
    cases hcond : (baseWalk st (st.length + 1) (some j) || importMissing st j) with
    | false =>
      rw [finalizeScan_skip st b j rest hcond] at h1 h2 ⊢
      refine ih st b ?_ t m h1 h2
      intro a c ha hc hcm
      have hmem := hinv a c ha hc hcm
      rcases List.mem_cons.mp hmem with hcj | hcr
      · subst hcj
        rw [notIncomplete_missFalse st c hcond] at hcm
        cases hcm
      · exact hcr
    | true =>
      rw [finalizeScan_incomplete st b j rest hcond] at h1 h2 ⊢
      have hfuelOK := mimFuel_adequate (setMissingAt st j)
      have mimpost := mimRun_post (mimFuel (setMissingAt st j).length) j
        (setMissingAt st j) (List.range (setMissingAt st j).length) hfuelOK
      have hst3s : sameStatics st
          (markImportedMissingRun (mimFuel (setMissingAt st j).length) j
            (setMissingAt st j) (List.range (setMissingAt st j).length)) :=
        sameStatics_trans (setMissingAt_sameStatics st j)
          (mimRun_sameStatics _ j _ _)
      have hProp3 : Propagated
          (markImportedMissingRun (mimFuel (setMissingAt st j).length) j
            (setMissingAt st j) (List.range (setMissingAt st j).length)) j := by
        intro a halen haf
        refine mimpost.1 a (List.mem_range.mpr ?_) haf
        rw [mimRun_length] at halen
        exact halen
      refine ih _ true ?_ t m h1 h2
      intro a c ha hc hcm
      have halen : a < (markImportedMissingRun (mimFuel (setMissingAt st j).length) j
          (setMissingAt st j) (List.range (setMissingAt st j).length)).length :=
        lt_length_of_impOf_mem _ a c hc
      by_cases h2m : missAt (setMissingAt st j) c = true
      · by_cases hcj : c = j
        · subst hcj
          exact absurd hc (hProp3 a halen ha)
        · have hcmst : missAt st c = true := by
            rw [← missAt_setMissingAt_of_ne st j c hcj]
            exact h2m
          have hast : missAt st a = false := by
            cases hx : missAt st a with
            | false => rfl
            | true =>
              rw [mimRun_mono _ j _ _ a (missAt_setMissingAt_mono st j a hx)] at ha
              cases ha
          have haimp : c ∈ impOf st a := by
            rw [impOf_congr hst3s a]
            exact hc
          have hmem := hinv a c hast haimp hcmst
          rcases List.mem_cons.mp hmem with hcj2 | hcr
          · exact absurd hcj2 hcj
          · exact hcr
      · have h2f : missAt (setMissingAt st j) c = false := by
          cases hx : missAt (setMissingAt st j) c with
          | false => rfl
          | true => exact absurd hx h2m
        have hpropc := mimpost.2 c h2f hcm
        exact absurd hc (hpropc a halen ha)

/-- C2 counterexample: a three-type cohort where type 0 has type 1 as
its base type (and no imports), type 1 imports type 2, and only type 2
is initially missing.  After the marking pass, type 1 is missing (as
an importer of the missing type 2) and sits on the base-type chain of
type 0, yet type 0 is not flagged missing: the cascade propagates along
the import edges only, so the claimed transitive closure under combined
base-type and import dependency fails at this input. -/
theorem c2_counterexample :
    (1 ∈ baseChain (markingPass
        [⟨1, "x.A", some 1, [], false, false, false, false⟩,
         ⟨2, "x.B", none, [2], false, false, false, false⟩,
         ⟨3, "x.C", none, [], false, false, false, true⟩]).1
      ((markingPass
        [⟨1, "x.A", some 1, [], false, false, false, false⟩,
         ⟨2, "x.B", none, [2], false, false, false, false⟩,
         ⟨3, "x.C", none, [], false, false, false, true⟩]).1.length + 1)
      (some 0)) ∧
    missAt (markingPass
        [⟨1, "x.A", some 1, [], false, false, false, false⟩,
         ⟨2, "x.B", none, [2], false, false, false, false⟩,
         ⟨3, "x.C", none, [], false, false, false, true⟩]).1 1 = true ∧
    missAt (markingPass
        [⟨1, "x.A", some 1, [], false, false, false, false⟩,
         ⟨2, "x.B", none, [2], false, false, false, false⟩,
         ⟨3, "x.C", none, [], false, false, false, true⟩]).1 0 = false := by
  decide

/-- C2 (amended): the missing-type marking pass of
`finalizeAssemblyLoad` (a) never clears a missing flag, (b) flags every
type whose base-type chain contains an initially missing type, and
(c) reaches a state closed under import dependency: no surviving type
has an import edge to a type that ends up missing — hence the final
missing set contains the transitive closure of the initial missing set
under the import edges (in particular, for X imports Y imports Z with
only Z initially missing, X and Y end up missing).  Base-type dependency
is only consulted against the flags current at each type's scan
position, so a type whose base ancestor becomes missing later in the
pass, with no import edge to it, is not flagged. -/
theorem c2_missing_marking (ts : List LSType) :
    (∀ i : Nat, missAt ts i = true → missAt (markingPass ts).1 i = true) ∧
    (∀ t : Nat,
      (∃ a ∈ baseChain ts (ts.length + 1) (some t), missAt ts a = true) →
      missAt (markingPass ts).1 t = true) ∧
    (∀ t m : Nat, missAt (markingPass ts).1 t = false →
      m ∈ impOf (markingPass ts).1 t → missAt (markingPass ts).1 m = false) := by
  refine ⟨?_, ?_, ?_⟩
  · intro i h
    exact finalizeScan_mono (List.range ts.length) ts false i h
  · intro t hex
    have ht : t < ts.length := baseChain_lt_length ts t hex
    exact finalizeScan_marks_base (List.range ts.length) ts false t
      (List.mem_range.mpr ht) hex
  · intro t m h1 h2
    refine finalizeScan_closed (List.range ts.length) ts false ?_ t m h1 h2
    intro a c _ _ hcm
    exact List.mem_range.mpr (lt_length_of_missAt ts c hcm)

/-- C2 witness: the import chain X imports Y imports Z with only Z
initially missing — the amended theorem's monotonicity conjunct applied
at Z, and its base-chain conjunct applied at a type whose base is
initially missing. -/
theorem c2_missing_marking_witness :
    missAt (markingPass
      [⟨1, "c.X", none, [1], false, false, false, false⟩,
       ⟨2, "c.Y", none, [2], false, false, false, false⟩,
       ⟨3, "c.Z", none, [], false, false, false, true⟩]).1 2 = true :=
  (c2_missing_marking
    [⟨1, "c.X", none, [1], false, false, false, false⟩,
     ⟨2, "c.Y", none, [2], false, false, false, false⟩,
     ⟨3, "c.Z", none, [], false, false, false, true⟩]).1 2 (by decide)

theorem reduceOption_map_some {α : Type} (l : List α) :
    (l.map some).reduceOption = l := by
  induction l with
  | nil => rfl
  | cons a rest ih => rw [List.map_cons, List.reduceOption_cons_of_some, ih]

theorem take_set_ge {α : Type} (l : List α) (n m : Nat) (a : α) (h : m ≤ n) :
    (l.set n a).take m = l.take m := by
  apply List.ext_getElem?
  intro k
  by_cases hk : k < m
  · rw [List.getElem?_take_of_lt hk, List.getElem?_take_of_lt hk,
      List.getElem?_set_ne (by omega)]
  · rw [List.getElem?_eq_none, List.getElem?_eq_none]
    · exact le_trans (by simpa using Nat.min_le_left m l.length)
        (Nat.le_of_not_lt hk)
    · exact le_trans (by simpa using Nat.min_le_left m (l.set n a).length)
        (Nat.le_of_not_lt hk)

theorem drop_set_lt {α : Type} (l : List α) (n m : Nat) (a : α) (h : n < m) :
    (l.set n a).drop m = l.drop m := by
  apply List.ext_getElem?
  intro k
  rw [List.getElem?_drop, List.getElem?_drop, List.getElem?_set_ne (by omega)]

theorem finalizeScan_true :
    ∀ js : List Nat, ∀ st : List LSType, (finalizeScan st true js).2 = true := by
  intro js
  induction js with
  | nil => intro st; rfl
  | cons j rest ih =>
    intro st
    cases hcond : (baseWalk st (st.length + 1) (some j) || importMissing st j) with
    | true =>
      rw [finalizeScan_incomplete st true j rest hcond]
      exact ih _
    | false =>
      rw [finalizeScan_skip st true j rest hcond]
      exact ih st

theorem finalizeScan_shrink_false :
    ∀ js : List Nat, ∀ st : List LSType, ∀ b : Bool,
      (finalizeScan st b js).2 = false →
      (finalizeScan st b js).1 = st ∧ ∀ j ∈ js, missAt st j = false := by
  intro js
  induction js with
  | nil =>
    intro st b _
    exact ⟨rfl, fun j hj => absurd hj (List.not_mem_nil j)⟩
  | cons j rest ih =>
    intro st b hsh
    cases hcond : (baseWalk st (st.length + 1) (some j) || importMissing st j) with
    | true =>
      rw [finalizeScan_incomplete st b j rest hcond] at hsh
      rw [finalizeScan_true rest _] at hsh
      cases hsh
    | false =>
      rw [finalizeScan_skip st b j rest hcond] at hsh ⊢
      rcases ih st b hsh with ⟨h1, h2⟩
      refine ⟨h1, ?_⟩
      intro a ha
      rcases List.mem_cons.mp ha with haj | har
      · subst haj
        exact notIncomplete_missFalse st a hcond
      · exact h2 a har

theorem no_missing_filter (ts : List LSType)
    (h : ∀ j : Nat, j < ts.length → missAt ts j = false) :
    ts.filter (fun t => t.missing) = [] := by
  induction ts with
  | nil => rfl
  | cons t tl ih =>
    have h0 : t.missing = false := by
      have := h 0 (by simp)
      rw [missAt] at this
      simpa using this
    rw [List.filter_cons, if_neg (by simp [h0])]
    refine ih ?_
    intro j hj
    have := h (j + 1) (by simpa using Nat.succ_lt_succ hj)
    rw [missAt_cons_succ] at this
    exact this

theorem compactScan_spec :
    ∀ k : Nat, ∀ ts pre removed : List LSType,
      ∀ arr : List (Option LSType), ∀ ff j : Nat,
      j + k = ts.length →
      arr.length = ts.length →
      ff = pre.length →
      ff ≤ j →
      arr.take ff = pre.map some →
      arr.drop j = (ts.drop j).map some →
      (compactScan arr ff removed (List.range' j k)).2.1 =
        pre.length + ((ts.drop j).filter (fun t => !t.missing)).length ∧
      (compactScan arr ff removed (List.range' j k)).2.2 =
        removed ++ (ts.drop j).filter (fun t => t.missing) ∧
      ((compactScan arr ff removed (List.range' j k)).1.take
        (compactScan arr ff removed (List.range' j k)).2.1).reduceOption =
        pre ++ (ts.drop j).filter (fun t => !t.missing) := by
  intro k
  induction k with
  | zero =>
    intro ts pre removed arr ff j hk harr hffp hffj htake hdrop
    subst hffp
    have hjlen : j = ts.length := by omega
    have hdnil : ts.drop j = [] := by
      rw [hjlen, List.drop_length]
    simp only [List.range'_zero, compactScan, hdnil, List.filter_nil,
      List.length_nil, List.append_nil]
    refine ⟨by omega, by simp, ?_⟩
    rw [htake, reduceOption_map_some]
  | succ k ih =>
    intro ts pre removed arr ff j hk harr hffp hffj htake hdrop
    have hj : j < ts.length := by omega
    have hja : j < arr.length := by omega
    have hdts : ts.drop j = ts.get ⟨j, hj⟩ :: ts.drop (j + 1) :=
      List.drop_eq_get_cons hj
    have hdarr : arr.drop j = arr.get ⟨j, hja⟩ :: arr.drop (j + 1) :=
      List.drop_eq_get_cons hja
    rw [hdts, List.map_cons, hdarr] at hdrop
    have hheads : arr.get ⟨j, hja⟩ = some (ts.get ⟨j, hj⟩) :=
      (List.cons.injEq _ _ _ _ ▸ hdrop).1
    have htails : arr.drop (j + 1) = (ts.drop (j + 1)).map some :=
      (List.cons.injEq _ _ _ _ ▸ hdrop).2
    have harrj : arr[j]? = some (some (ts.get ⟨j, hj⟩)) := by
      rw [← List.get?_eq_getElem?, List.get?_eq_get hja, hheads]
    rw [List.range'_succ]
    cases hmiss : (ts.get ⟨j, hj⟩).missing with
    | false =>
      have hmissE : ts[j].missing = false := hmiss
      have hred : compactScan arr ff removed (j :: List.range' (j + 1) k) =
          compactScan (arr.set ff (some (ts.get ⟨j, hj⟩))) (ff + 1) removed
            (List.range' (j + 1) k) := by
        simp [compactScan, harrj, hmissE]
      rw [hred]
      have hffa : ff < arr.length := by omega
      have htake2 : (arr.set ff (some (ts.get ⟨j, hj⟩))).take (ff + 1) =
          (pre ++ [ts.get ⟨j, hj⟩]).map some := by
        rw [List.take_succ, take_set_ge arr ff ff _ (le_refl ff), htake,
          List.getElem?_set_self hffa]
        simp
      have hdrop2 : (arr.set ff (some (ts.get ⟨j, hj⟩))).drop (j + 1) =
          (ts.drop (j + 1)).map some := by
        rw [drop_set_lt arr ff (j + 1) _ (by omega)]
        exact htails
      have IH := ih ts (pre ++ [ts.get ⟨j, hj⟩]) removed
        (arr.set ff (some (ts.get ⟨j, hj⟩))) (ff + 1) (j + 1)
        (by omega) (by simpa using harr) (by simp [hffp]) (by omega)
        htake2 hdrop2
      rcases IH with ⟨i1, i2, i3⟩
      refine ⟨?_, ?_, ?_⟩
      · rw [i1, hdts, List.filter_cons, if_pos (by simp [hmissE])]
        simp
        omega
      · rw [i2, hdts, List.filter_cons, if_neg (by simp [hmissE])]
      · rw [i3, hdts, List.filter_cons, if_pos (by simp [hmissE])]
        simp
    | true =>
      have hmissE : ts[j].missing = true := hmiss
      have hred : compactScan arr ff removed (j :: List.range' (j + 1) k) =
          compactScan (arr.set j none) ff (removed ++ [ts.get ⟨j, hj⟩])
            (List.range' (j + 1) k) := by
        simp [compactScan, harrj, hmissE]
      rw [hred]
      have htake2 : (arr.set j none).take ff = pre.map some := by
        rw [take_set_ge arr j ff none hffj]
        exact htake
      have hdrop2 : (arr.set j none).drop (j + 1) =
          (ts.drop (j + 1)).map some := by
        rw [drop_set_lt arr j (j + 1) none (by omega)]
        exact htails
      have IH := ih ts pre (removed ++ [ts.get ⟨j, hj⟩])
        (arr.set j none) ff (j + 1)
        (by omega) (by simpa using harr) hffp (by omega)
        htake2 hdrop2
      rcases IH with ⟨i1, i2, i3⟩
      refine ⟨?_, ?_, ?_⟩
      · rw [i1, hdts, List.filter_cons, if_neg (by simp [hmissE])]
      · rw [i2, hdts, List.filter_cons, if_pos (by simp [hmissE])]
        simp
      · rw [i3, hdts, List.filter_cons, if_neg (by simp [hmissE])]

theorem filter_length_split (l : List LSType) :
    (l.filter (fun t => !t.missing)).length +
      (l.filter (fun t => t.missing)).length = l.length := by
  induction l with
  | nil => rfl
  | cons t tl ih =>
    cases h : t.missing with
    | true =>
      rw [List.filter_cons, List.filter_cons, if_neg (by simp [h]),
        if_pos (by simp [h])]
      simp only [List.length_cons]
      omega
    | false =>
      rw [List.filter_cons, List.filter_cons, if_pos (by simp [h]),
        if_neg (by simp [h])]
      simp only [List.length_cons]
      omega

/-- C5: the in-place two-cursor compaction removes exactly the missing
types: the surviving list is the missing-free subsequence of the cohort
in original order, the removed (module-unregistered and deleted) list is
exactly the missing types, each appearing once, the live count equals
the original count minus the number of missing types; and when the
marking pass reports nothing to shrink, the cohort has no missing types
at all, so skipping compaction in that case removes exactly the (empty)
missing set as well. -/
theorem c5_compaction (ts : List LSType) :
    (compact ts).1 = ts.filter (fun t => !t.missing) ∧
    (compact ts).2 = ts.filter (fun t => t.missing) ∧
    (compact ts).1.length = ts.length - (compact ts).2.length ∧
    ((markingPass ts).2 = false →
      (markingPass ts).1.filter (fun t => t.missing) = []) := by
  have hspec := compactScan_spec ts.length ts [] [] (ts.map some) 0 0
    (by omega) (by simp) rfl (le_refl 0) (by simp) (by simp)
  rcases hspec with ⟨h1, h2, h3⟩
  have hrange : List.range ts.length = List.range' 0 ts.length :=
    List.range_eq_range' ts.length
  have hc1 : (compact ts).1 = ts.filter (fun t => !t.missing) := by
    simp only [compact, hrange]
    rw [h3]
    simp
  have hc2 : (compact ts).2 = ts.filter (fun t => t.missing) := by
    simp only [compact, hrange]
    rw [h2]
    simp
  refine ⟨hc1, hc2, ?_, ?_⟩
  · rw [hc1, hc2]
    have := filter_length_split ts
    omega
  · intro hsh
    rcases finalizeScan_shrink_false (List.range ts.length) ts false hsh with
      ⟨hst, hall⟩
    have hmp : (markingPass ts).1 = ts := hst
    rw [hmp]
    refine no_missing_filter ts ?_
    intro j hj
    exact hall j (List.mem_range.mpr hj)

/-- C5 witness: a cohort with one live and one missing type compacts to
the live type alone, and an all-live cohort reports no shrink and keeps
an empty missing set. -/
theorem c5_compaction_witness :
    (compact [⟨1, "m.L", none, [], false, false, false, false⟩,
              ⟨2, "m.M", none, [], false, false, false, true⟩]).1 =
      List.filter (fun t => !t.missing)
        [⟨1, "m.L", none, [], false, false, false, false⟩,
         ⟨2, "m.M", none, [], false, false, false, true⟩] ∧
    (markingPass [⟨1, "m.N", none, [], false, false, false, false⟩]).1.filter
      (fun t => t.missing) = [] :=
  ⟨(c5_compaction [⟨1, "m.L", none, [], false, false, false, false⟩,
      ⟨2, "m.M", none, [], false, false, false, true⟩]).1,
   (c5_compaction [⟨1, "m.N", none, [], false, false, false, false⟩]).2.2.2
     (by decide)⟩

end LoomSpec
